import Mathlib

/-
Verification of the bounded stochastic ECU optimizer and its constraint
validator (src/python/ecu/optimizer.py and src/python/ecu/validator.py).

Modelling conventions:
  * Python floats are modelled as real numbers; NaN/infinity are not
    representable, so `math.isfinite` is identically true in the model and
    the validator's finiteness scans never fire.
  * The seeded random source (Python's `random.Random`, which lives outside
    the repository) is modelled from the spec as an explicit stream of unit
    draws `u : ℕ → ℝ` together with a cursor; `uniform(a, b)` consumes one
    draw and returns `a + (b - a) * u k`, exactly CPython's formula.
  * Operations that can raise a non-ValidationError exception (Python's
    `max`/`min` on an empty list) are modelled with `Option`: `none` is a
    crash.  `ValidationError` is a caught, structured rejection and is
    modelled with `Except`.
-/

namespace DynoECU

noncomputable section

/-- Calibration parameters proposed alongside the torque change; the fixed
key set of `_pick_calibration` (`afr_target`, `ign_timing_deg`,
`boost_target_psi`), in the dict's insertion order. -/
structure Calibration where
  afr_target : ℝ
  ign_timing_deg : ℝ
  boost_target_psi : ℝ

/-- Configured calibration ranges: `constraints["calibration_ranges"]`
restricted to the three parameter names the code ever looks up; `none`
models an absent key. -/
structure CalRanges where
  afr_target : Option (ℝ × ℝ)
  ign_timing_deg : Option (ℝ × ℝ)
  boost_target_psi : Option (ℝ × ℝ)

/-- The constraints record.  A field holds the effective value of
`constraints.get(key, default)`: an absent key is represented by the
default value the code substitutes (8.0, 0.03, 0.02, 0.15). -/
structure Constraints where
  max_peak_gain_ratio : ℝ
  max_bin_delta_nm : ℝ
  max_bin_delta_ratio : ℝ
  max_second_derivative : ℝ
  calibration_ranges : CalRanges

/-- Modelled from the spec: RandomStream (`random.Random`, outside src/).
`uniform(lo, hi)` consumes one unit draw and returns
`lo + (hi - lo) * u k`, CPython's formula for `Random.uniform`.  The pair
is the value and the advanced cursor. -/
def uniform (u : ℕ → ℝ) (k : ℕ) (lo hi : ℝ) : ℝ × ℕ :=
  (lo + (hi - lo) * u k, k + 1)

/-- `_clamp(value, lo, hi) = max(lo, min(hi, value))` from optimizer.py. -/
def pyClamp (value lo hi : ℝ) : ℝ :=
  max lo (min hi value)

/-- Python `min` over a list: `none` on the empty list (ValueError). -/
def listMin : List ℝ → Option ℝ
  | [] => none
  | x :: xs => some (xs.foldl min x)

/-- Python `max` over a list: `none` on the empty list (ValueError). -/
def listMax : List ℝ → Option ℝ
  | [] => none
  | x :: xs => some (xs.foldl max x)

/-- Round-half-even to an integer, the tie rule of Python's `round`. -/
def halfEvenZ (x : ℝ) : ℤ :=
  if Int.fract x < 1 / 2 then ⌊x⌋
  else if 1 / 2 < Int.fract x then ⌊x⌋ + 1
  else if ⌊x⌋ % 2 = 0 then ⌊x⌋ else ⌊x⌋ + 1

/-- Python's `round(x, n)` on the real value (round-half-even at the n-th
decimal; binary floating-point representation artifacts are out of the
model's scope). -/
def pyRound (x : ℝ) (n : ℕ) : ℝ :=
  (halfEvenZ (x * 10 ^ n) : ℝ) / 10 ^ n

/-- `_compute_score`: the sum of the proposed torque values. -/
def compute_score (proposed : List ℝ) : ℝ :=
  proposed.sum

/-- The `if lo > hi: lo, hi = hi, lo` defensive swap of
`_pick_calibration`. -/
def orient (p : ℝ × ℝ) : ℝ × ℝ :=
  if p.2 < p.1 then (p.2, p.1) else p

/-- `_pick_calibration(rng, constraints)`: one uniform draw per parameter,
within the configured range when present, else the built-in default range,
with inverted bounds swapped.  Draw order is the `defaults` dict order:
`afr_target`, `ign_timing_deg`, `boost_target_psi`. -/
def pick_calibration (u : ℕ → ℝ) (k : ℕ) (c : Constraints) : Calibration × ℕ :=
  let ra := orient (c.calibration_ranges.afr_target.getD (12.5, 13.5))
  let (afr, k1) := uniform u k ra.1 ra.2
  let ri := orient (c.calibration_ranges.ign_timing_deg.getD (0, 4))
  let (ign, k2) := uniform u k1 ri.1 ri.2
  let rb := orient (c.calibration_ranges.boost_target_psi.getD (0, 14))
  let (boost, k3) := uniform u k2 rb.1 rb.2
  (⟨afr, ign, boost⟩, k3)

/-- The per-bin loop of `_gaussian_delta_profile` (optimizer.py lines
91-96): the Gaussian value at each bin, clamped to `[0, per_bin_limit[i]]`
as the code's defensive bound. -/
def gaussian_profile_of (peak sigma center : ℝ) (per_bin_limit : List ℝ)
    (n : ℕ) : List ℝ :=
  (List.range n).map (fun (i : ℕ) =>
    pyClamp (peak * Real.exp (-0.5 * (((i : ℝ) - center) / sigma) ^ 2))
      0 (per_bin_limit.getD i 0))

/-- `_gaussian_delta_profile(rng, baseline, constraints, scale)`.
`none` models the ValueError `min([])` raises on an empty baseline.
Otherwise: per-bin ceilings, the `global_limit <= 0 or max_second_deriv
<= 0` early return (no draw consumed), the `peak <= 0` early return (one
draw consumed), and the clamped Gaussian profile (three draws consumed). -/
def gaussian_delta_profile (u : ℕ → ℝ) (k : ℕ) (baseline_torque_nm : List ℝ)
    (c : Constraints) (scale : ℝ) : Option (List ℝ × ℕ) :=
  let n := baseline_torque_nm.length
  let per_bin_limit := baseline_torque_nm.map
    (fun b => min c.max_bin_delta_nm (b * c.max_bin_delta_ratio))
  match listMin per_bin_limit with
  | none => none
  | some mn =>
    let global_limit := mn * scale
    if global_limit ≤ 0 ∨ c.max_second_derivative ≤ 0 then
      some (List.replicate n 0, k)
    else
      let (peak, k1) := uniform u k 0 global_limit
      if peak ≤ 0 then
        some (List.replicate n 0, k1)
      else
        let min_sigma := Real.sqrt (peak / c.max_second_derivative)
        let max_sigma := max (n : ℝ) (min_sigma + 0.1)
        let (sigma, k2) := uniform u k1 min_sigma max_sigma
        let (center, k3) := uniform u k2 0 ((n : ℝ) - 1)
        some (gaussian_profile_of peak sigma center per_bin_limit n, k3)

/-- The structured content of a `ValidationError` message, one constructor
per raise site of `validate_proposal`. -/
inductive VError where
  | lenDelta (nd nr : ℕ)
  | lenBaseline (nb nr : ℕ)
  | invalidBaseline (i : ℕ) (b : ℝ)
  | binDeltaExceeds (i : ℕ) (d : ℝ)
  | binRatioExceeds (i : ℕ) (r : ℝ)
  | peakGainExceeds (r : ℝ)
  | smoothnessViolation (i : ℕ) (sd : ℝ)
  | calibOutOfRange (p : String) (v lo hi : ℝ)

/-- A non-fatal validator warning; the only append site is the
peak-torque-reduction branch. -/
inductive Warning where
  | reducesPeak (r : ℝ)

/-- The per-bin loop of validator.py step 3 over `zip(delta, baseline)`:
baseline validity, then the absolute cap, then the ratio cap, bin by bin
in index order, stopping at the first violation. -/
def checkBins (i : ℕ) (ps : List (ℝ × ℝ)) (nm ratio : ℝ) : Except VError Unit :=
  match ps with
  | [] => .ok ()
  | (d, b) :: rest =>
    if b ≤ 0 then .error (.invalidBaseline i b)
    else if nm < |d| then .error (.binDeltaExceeds i d)
    else if ratio < |d| / b then .error (.binRatioExceeds i (|d| / b))
    else checkBins (i + 1) rest nm ratio

/-- The smoothness loop of validator.py step 5: the absolute second
difference of the delta curve at each interior bin, in index order.  The
sliding three-element window at position `i` is
`(delta[i-1], delta[i], delta[i+1])`. -/
def secondDiffCheck (i : ℕ) (l : List ℝ) (msd : ℝ) : Except VError Unit :=
  match l with
  | a :: b :: cc :: rest =>
    let sd := |cc - 2 * b + a|
    if msd < sd then .error (.smoothnessViolation i sd)
    else secondDiffCheck (i + 1) (b :: cc :: rest) msd
  | _ => .ok ()

/-- One iteration of the calibration loop of validator.py step 6 (the
finiteness test is identically true over the reals). -/
def checkParam (p : String) (v : ℝ) (range : Option (ℝ × ℝ)) : Except VError Unit :=
  match range with
  | none => .ok ()
  | some (lo, hi) =>
    if lo ≤ v ∧ v ≤ hi then .ok ()
    else .error (.calibOutOfRange p v lo hi)

/-- The calibration loop of validator.py step 6, iterating the proposal's
keys in their insertion order. -/
def checkCalibration (cal : Calibration) (r : CalRanges) : Except VError Unit :=
  match checkParam "afr_target" cal.afr_target r.afr_target with
  | .error e => .error e
  | .ok () =>
    match checkParam "ign_timing_deg" cal.ign_timing_deg r.ign_timing_deg with
    | .error e => .error e
    | .ok () => checkParam "boost_target_psi" cal.boost_target_psi r.boost_target_psi

/-- Validator steps 5 and 6, run after the peak-gain check with the
warnings accumulated so far. -/
def tailChecks (delta : List ℝ) (cal : Calibration) (c : Constraints)
    (ws : List Warning) : Except VError (List Warning) :=
  match (if 3 ≤ delta.length then secondDiffCheck 1 delta c.max_second_derivative
         else .ok ()) with
  | .error e => .error e
  | .ok () =>
    match checkCalibration cal c.calibration_ranges with
    | .error e => .error e
    | .ok () => .ok ws

/-- Validator step 4 (peak-gain cap and the reduction warning), followed by
the tail checks.  `bp` and `pp` are the baseline and proposed peaks. -/
def peakAndRest (delta : List ℝ) (cal : Calibration) (c : Constraints)
    (bp pp : ℝ) : Except VError (List Warning) :=
  if 0 < bp then
    let pgr := (pp - bp) / bp
    if c.max_peak_gain_ratio < pgr then .error (.peakGainExceeds pgr)
    else tailChecks delta cal c (if pgr < 0 then [Warning.reducesPeak pgr] else [])
  else tailChecks delta cal c []

/-- `validate_proposal(torque_delta_nm, calibration, baseline_torque_nm,
rpm_bins, constraints)` from validator.py.  `some (.error e)` is a raised
`ValidationError`, `some (.ok ws)` is acceptance with warnings `ws`, and
`none` is the uncaught ValueError of `max` on an empty list (reachable
only when every list is empty).  The NaN/infinity scans of steps 2, 3 and
6 are identically true over the reals and drop out. -/
def validate_proposal (torque_delta_nm : List ℝ) (calibration : Calibration)
    (baseline_torque_nm : List ℝ) (rpm_bins : List ℤ) (c : Constraints) :
    Option (Except VError (List Warning)) :=
  if torque_delta_nm.length ≠ rpm_bins.length then
    some (.error (.lenDelta torque_delta_nm.length rpm_bins.length))
  else if baseline_torque_nm.length ≠ rpm_bins.length then
    some (.error (.lenBaseline baseline_torque_nm.length rpm_bins.length))
  else
    match checkBins 0 (torque_delta_nm.zip baseline_torque_nm)
        c.max_bin_delta_nm c.max_bin_delta_ratio with
    | .error e => some (.error e)
    | .ok () =>
      match listMax baseline_torque_nm,
          listMax (List.zipWith (· + ·) baseline_torque_nm torque_delta_nm) with
      | some bp, some pp => some (peakAndRest torque_delta_nm calibration c bp pp)
      | _, _ => none

/-- The mutable state of `run_optimization`'s search loop. -/
structure SState where
  idx : ℕ
  best_delta : List ℝ
  best_calibration : Calibration
  best_score : ℝ
  best_warnings : List Warning
  cycles_used : ℕ

/-- One cycle of the search loop (optimizer.py lines 162-190): the
annealing-lite scale, one candidate profile and calibration, validation,
and the strict greedy keep-best update.  `cycles_used` counts every cycle,
rejected ones included. -/
def opt_step (baseline : List ℝ) (rpm_bins : List ℤ) (c : Constraints)
    (cycle_budget : ℕ) (u : ℕ → ℝ) (cycle : ℕ) (s : SState) : Option SState :=
  let scale : ℝ := 1 - ((cycle : ℝ) / ((max cycle_budget 1 : ℕ) : ℝ)) * 0.5
  match gaussian_delta_profile u s.idx baseline c scale with
  | none => none
  | some (candidate_delta, k1) =>
    let (candidate_calibration, k2) := pick_calibration u k1 c
    match validate_proposal candidate_delta candidate_calibration baseline rpm_bins c with
    | none => none
    | some (.error _) =>
      some { s with idx := k2, cycles_used := s.cycles_used + 1 }
    | some (.ok ws) =>
      let score := compute_score (List.zipWith (· + ·) baseline candidate_delta)
      if s.best_score < score then
        some ⟨k2, candidate_delta, candidate_calibration, score, ws, s.cycles_used + 1⟩
      else
        some { s with idx := k2, cycles_used := s.cycles_used + 1 }

/-- The loop's initial state (optimizer.py lines 150-160): zero delta, one
sampled calibration, `best_score = sum(baseline)`, no warnings. -/
def init_state (baseline : List ℝ) (c : Constraints) (u : ℕ → ℝ) : SState :=
  let (calib0, k0) := pick_calibration u 0 c
  ⟨k0, List.replicate baseline.length 0, calib0, compute_score baseline, [], 0⟩

/-- The first `k` cycles of the search loop, starting from the initial
state; `none` propagates a crash. -/
def search_fold (baseline : List ℝ) (rpm_bins : List ℤ) (c : Constraints)
    (cycle_budget : ℕ) (u : ℕ → ℝ) (k : ℕ) : Option SState :=
  (List.range k).foldl
    (fun acc cycle => acc.bind (opt_step baseline rpm_bins c cycle_budget u cycle))
    (some (init_state baseline c u))

/-- The whole search loop: the state after `cycle_budget` cycles. -/
def search_core (baseline : List ℝ) (rpm_bins : List ℤ) (c : Constraints)
    (cycle_budget : ℕ) (u : ℕ → ℝ) : Option SState :=
  search_fold baseline rpm_bins c cycle_budget u cycle_budget

/-- The result record of `run_optimization`. -/
structure OptResult where
  torque_delta_nm : List ℝ
  calibration : Calibration
  confidence : ℝ
  estimated_peak_gain_ratio : ℝ
  cycles_used : ℕ
  best_score : ℝ
  warnings : List Warning

/-- `run_optimization(baseline_torque_nm, rpm_bins, constraints,
cycle_budget, seed)` from optimizer.py, with the seeded stream passed as
the draw function `u`.  `none` models the ValueError of
`max(baseline_torque_nm)` on an empty baseline (optimizer.py line 153) or
a crash inside the loop.  The final metrics mirror lines 192-226,
including the `round` calls on `confidence`, `estimated_peak_gain_ratio`
and `best_score`. -/
def run_optimization (baseline_torque_nm : List ℝ) (rpm_bins : List ℤ)
    (c : Constraints) (cycle_budget : ℕ) (u : ℕ → ℝ) : Option OptResult :=
  match listMax baseline_torque_nm with
  | none => none
  | some baseline_peak =>
    match search_core baseline_torque_nm rpm_bins c cycle_budget u with
    | none => none
    | some s =>
      match listMax (List.zipWith (· + ·) baseline_torque_nm s.best_delta) with
      | none => none
      | some proposed_peak =>
        let estimated_peak_gain_ratio :=
          if 0 < baseline_peak then (proposed_peak - baseline_peak) / baseline_peak
          else 0
        let confidence := pyClamp
          (if 0 < c.max_peak_gain_ratio then
            estimated_peak_gain_ratio / c.max_peak_gain_ratio
          else 0) 0 1
        some ⟨s.best_delta, s.best_calibration, pyRound confidence 4,
          pyRound estimated_peak_gain_ratio 6, s.cycles_used,
          pyRound s.best_score 4, s.best_warnings⟩

/-- Shorthand for the per-bin ceiling list of the candidate generator. -/
def perBinLimit (baseline : List ℝ) (c : Constraints) : List ℝ :=
  baseline.map (fun b => min c.max_bin_delta_nm (b * c.max_bin_delta_ratio))

/-- Well-formedness of a constraints record, the sanity conditions under
which the never-validated zero-delta default itself satisfies every
constraint: non-negative caps and bounds, and ordered configured
calibration ranges. -/
structure ConstraintsWF (c : Constraints) : Prop where
  nm_nonneg : 0 ≤ c.max_bin_delta_nm
  ratio_nonneg : 0 ≤ c.max_bin_delta_ratio
  peak_nonneg : 0 ≤ c.max_peak_gain_ratio
  msd_nonneg : 0 ≤ c.max_second_derivative
  afr_ordered : ∀ lo hi, c.calibration_ranges.afr_target = some (lo, hi) → lo ≤ hi
  ign_ordered : ∀ lo hi, c.calibration_ranges.ign_timing_deg = some (lo, hi) → lo ≤ hi
  boost_ordered : ∀ lo hi, c.calibration_ranges.boost_target_psi = some (lo, hi) → lo ≤ hi

/-- The unit Gaussian bell `exp(-x²/2)`, written with the code's
`-0.5 * x ** 2` exponent. -/
def bell (x : ℝ) : ℝ := Real.exp (-0.5 * x ^ 2)

/-- The minimum returned by `listMin` is a lower bound of the list. -/
theorem foldl_min_le (xs : List ℝ) : ∀ a : ℝ,
    xs.foldl min a ≤ a ∧ ∀ x ∈ xs, xs.foldl min a ≤ x := by
  induction xs with
  | nil => intro a; simp
  | cons y ys ih =>
    intro a
    simp only [List.foldl_cons]
    refine ⟨le_trans (ih (min a y)).1 (min_le_left a y), ?_⟩
    intro x hx
    rcases List.mem_cons.mp hx with h | h
    · subst h; exact le_trans (ih (min a x)).1 (min_le_right a x)
    · exact (ih (min a y)).2 x h

/-- The value returned by `listMin` is an element of the list. -/
theorem foldl_min_mem (xs : List ℝ) : ∀ a : ℝ, xs.foldl min a ∈ a :: xs := by
  induction xs with
  | nil => intro a; simp
  | cons y ys ih =>
    intro a
    simp only [List.foldl_cons]
    have h := ih (min a y)
    rcases List.mem_cons.mp h with h' | h'
    · rw [h']
      rcases min_choice a y with hc | hc
      · rw [hc]; exact List.mem_cons_self _ _
      · rw [hc]; exact List.mem_cons_of_mem _ (List.mem_cons_self _ _)
    · exact List.mem_cons_of_mem _ (List.mem_cons_of_mem _ h')

theorem listMin_le {l : List ℝ} {m : ℝ} (h : listMin l = some m) :
    ∀ x ∈ l, m ≤ x := by
  match l with
  | [] => simp [listMin] at h
  | x :: xs =>
    simp only [listMin, Option.some.injEq] at h
    intro y hy
    rcases List.mem_cons.mp hy with h' | h'
    · exact h ▸ h' ▸ (foldl_min_le xs x).1
    · exact h ▸ (foldl_min_le xs x).2 y h'

theorem listMin_mem {l : List ℝ} {m : ℝ} (h : listMin l = some m) : m ∈ l := by
  match l with
  | [] => simp [listMin] at h
  | x :: xs =>
    simp only [listMin, Option.some.injEq] at h
    exact h ▸ foldl_min_mem xs x

theorem foldl_max_le (xs : List ℝ) : ∀ a : ℝ,
    a ≤ xs.foldl max a ∧ ∀ x ∈ xs, x ≤ xs.foldl max a := by
  induction xs with
  | nil => intro a; simp
  | cons y ys ih =>
    intro a
    simp only [List.foldl_cons]
    refine ⟨le_trans (le_max_left a y) (ih (max a y)).1, ?_⟩
    intro x hx
    rcases List.mem_cons.mp hx with h | h
    · subst h; exact le_trans (le_max_right a x) (ih (max a x)).1
    · exact (ih (max a y)).2 x h

theorem foldl_max_mem (xs : List ℝ) : ∀ a : ℝ, xs.foldl max a ∈ a :: xs := by
  induction xs with
  | nil => intro a; simp
  | cons y ys ih =>
    intro a
    simp only [List.foldl_cons]
    have h := ih (max a y)
    rcases List.mem_cons.mp h with h' | h'
    · rw [h']
      rcases max_choice a y with hc | hc
      · rw [hc]; exact List.mem_cons_self _ _
      · rw [hc]; exact List.mem_cons_of_mem _ (List.mem_cons_self _ _)
    · exact List.mem_cons_of_mem _ (List.mem_cons_of_mem _ h')

theorem listMax_ge {l : List ℝ} {m : ℝ} (h : listMax l = some m) :
    ∀ x ∈ l, x ≤ m := by
  match l with
  | [] => simp [listMax] at h
  | x :: xs =>
    simp only [listMax, Option.some.injEq] at h
    intro y hy
    rcases List.mem_cons.mp hy with h' | h'
    · exact h ▸ h' ▸ (foldl_max_le xs x).1
    · exact h ▸ (foldl_max_le xs x).2 y h'

theorem listMax_mem {l : List ℝ} {m : ℝ} (h : listMax l = some m) : m ∈ l := by
  match l with
  | [] => simp [listMax] at h
  | x :: xs =>
    simp only [listMax, Option.some.injEq] at h
    exact h ▸ foldl_max_mem xs x

theorem listMax_isSome {l : List ℝ} (h : l ≠ []) : ∃ m, listMax l = some m := by
  match l with
  | [] => exact absurd rfl h
  | x :: xs => exact ⟨xs.foldl max x, rfl⟩

theorem listMin_isSome {l : List ℝ} (h : l ≠ []) : ∃ m, listMin l = some m := by
  match l with
  | [] => exact absurd rfl h
  | x :: xs => exact ⟨xs.foldl min x, rfl⟩

/-- Adding the all-zero delta leaves the baseline unchanged. -/
theorem zipWith_add_replicate_zero (l : List ℝ) :
    List.zipWith (· + ·) l (List.replicate l.length 0) = l := by
  induction l with
  | nil => rfl
  | cons x xs ih => simp [List.replicate, ih]

/-- A uniform sample lies in the (ordered) sampling interval when the unit
draw lies in `[0, 1]`. -/
theorem uniform_mem {u : ℕ → ℝ} {k : ℕ} {lo hi : ℝ} (hle : lo ≤ hi)
    (h0 : 0 ≤ u k) (h1 : u k ≤ 1) :
    lo ≤ (uniform u k lo hi).1 ∧ (uniform u k lo hi).1 ≤ hi := by
  unfold uniform
  constructor
  · have : 0 ≤ (hi - lo) * u k := mul_nonneg (by linarith) h0
    simp only
    linarith
  · have : (hi - lo) * u k ≤ (hi - lo) * 1 :=
      mul_le_mul_of_nonneg_left h1 (by linarith)
    simp only
    linarith

theorem orient_ordered (p : ℝ × ℝ) : (orient p).1 ≤ (orient p).2 := by
  unfold orient
  split
  · next h => exact le_of_lt h
  · next h => exact le_of_not_lt h

/-- An oriented pair spans the same closed interval as the original pair
when the original pair is already ordered. -/
theorem orient_of_ordered {p : ℝ × ℝ} (h : p.1 ≤ p.2) : orient p = p := by
  unfold orient
  split
  · next h' => exact absurd h (not_le.mpr h')
  · rfl

theorem gaussian_profile_of_length (peak sigma center : ℝ) (pbl : List ℝ) (n : ℕ) :
    (gaussian_profile_of peak sigma center pbl n).length = n := by
  simp [gaussian_profile_of]

/-- `getD` on a replicated-zero list is zero. -/
theorem getD_replicate_zero (n i : ℕ) : (List.replicate n (0 : ℝ)).getD i 0 = 0 := by
  rcases Nat.lt_or_ge i n with h | h
  · rw [List.getD_eq_getElem _ 0 (by simpa using h)]
    simp
  · rw [List.getD_eq_default _ 0 (by simpa using h)]

/-- On a non-empty baseline the candidate generator returns normally, with
a profile of the baseline's length, and the cursor never moves backwards. -/
theorem gaussian_total {u : ℕ → ℝ} {k : ℕ} {baseline : List ℝ} {c : Constraints}
    {scale : ℝ} (hne : baseline ≠ []) :
    ∃ d k', gaussian_delta_profile u k baseline c scale = some (d, k') ∧
      d.length = baseline.length ∧ k ≤ k' := by
  have hpbl : perBinLimit baseline c ≠ [] := by
    simp [perBinLimit, hne]
  obtain ⟨mn, hmn⟩ := listMin_isSome hpbl
  have hmn' : listMin (baseline.map
      (fun b => min c.max_bin_delta_nm (b * c.max_bin_delta_ratio))) = some mn := hmn
  simp only [gaussian_delta_profile, hmn']
  by_cases h1 : mn * scale ≤ 0 ∨ c.max_second_derivative ≤ 0
  · rw [if_pos h1]
    exact ⟨_, _, rfl, by simp, le_refl k⟩
  · rw [if_neg h1]
    by_cases h2 : (uniform u k 0 (mn * scale)).1 ≤ 0
    · rw [if_pos h2]
      refine ⟨_, _, rfl, by simp, ?_⟩
      simp only [uniform]
      omega
    · rw [if_neg h2]
      refine ⟨_, _, rfl, by simp [gaussian_profile_of_length], ?_⟩
      simp only [uniform]
      omega

/-- Every entry of a generated profile is non-negative, and is below the
bin's ceiling whenever that ceiling is itself non-negative. -/
theorem gaussian_entry_bounds {u : ℕ → ℝ} {k : ℕ} {baseline : List ℝ}
    {c : Constraints} {scale : ℝ} {d : List ℝ} {k' : ℕ}
    (h : gaussian_delta_profile u k baseline c scale = some (d, k')) :
    ∀ i < baseline.length, 0 ≤ d.getD i 0 ∧
      (0 ≤ (perBinLimit baseline c).getD i 0 →
        d.getD i 0 ≤ (perBinLimit baseline c).getD i 0) := by
  have hne : baseline ≠ [] := by
    intro hnil
    rw [hnil] at h
    simp [gaussian_delta_profile, listMin] at h
  have hpbl : perBinLimit baseline c ≠ [] := by simp [perBinLimit, hne]
  obtain ⟨mn, hmn⟩ := listMin_isSome hpbl
  have hmn' : listMin (baseline.map
      (fun b => min c.max_bin_delta_nm (b * c.max_bin_delta_ratio))) = some mn := hmn
  simp only [gaussian_delta_profile, hmn'] at h
  have hrepl : ∀ i < baseline.length, (0 : ℝ) ≤ (List.replicate baseline.length (0 : ℝ)).getD i 0 ∧
      (0 ≤ (perBinLimit baseline c).getD i 0 →
        (List.replicate baseline.length (0 : ℝ)).getD i 0 ≤ (perBinLimit baseline c).getD i 0) := by
    intro i hi
    rw [getD_replicate_zero]
    exact ⟨le_refl 0, fun hL => hL⟩
  by_cases h1 : mn * scale ≤ 0 ∨ c.max_second_derivative ≤ 0
  · rw [if_pos h1] at h
    simp only [Option.some.injEq, Prod.mk.injEq] at h
    obtain ⟨hd, _⟩ := h
    subst hd
    exact hrepl
  · rw [if_neg h1] at h
    by_cases h2 : (uniform u k 0 (mn * scale)).1 ≤ 0
    · rw [if_pos h2] at h
      simp only [Option.some.injEq, Prod.mk.injEq] at h
      obtain ⟨hd, _⟩ := h
      subst hd
      exact hrepl
    · rw [if_neg h2] at h
      simp only [Option.some.injEq, Prod.mk.injEq] at h
      obtain ⟨hd, _⟩ := h
      subst hd
      intro i hi
      have hi' : i < (List.range baseline.length).length := by simpa using hi
      rw [gaussian_profile_of, List.getD_eq_getElem _ 0 (by simpa using hi')]
      simp only [List.getElem_map, List.getElem_range]
      refine ⟨le_max_left 0 _, fun hL => ?_⟩
      exact max_le hL (min_le_left _ _)

/-- When `global_limit ≤ 0` or the smoothness bound is non-positive the
generator returns the all-zero profile without consuming a draw. -/
theorem gaussian_zero_branch {u : ℕ → ℝ} {k : ℕ} {baseline : List ℝ}
    {c : Constraints} {scale : ℝ} {mn : ℝ}
    (hmn : listMin (perBinLimit baseline c) = some mn)
    (h1 : mn * scale ≤ 0 ∨ c.max_second_derivative ≤ 0) :
    gaussian_delta_profile u k baseline c scale =
      some (List.replicate baseline.length 0, k) := by
  have hmn' : listMin (baseline.map
      (fun b => min c.max_bin_delta_nm (b * c.max_bin_delta_ratio))) = some mn := hmn
  simp only [gaussian_delta_profile, hmn', if_pos h1]

/-- Structure of a generated profile when the draws are genuine unit draws
and the exploration scale lies in `(0, 1]`: either the all-zero profile, or
a pure (unclamped) Gaussian bell whose width satisfies the analytic
smoothness bound `peak / max_second_derivative ≤ sigma ^ 2`.  The clamp of
optimizer.py line 95 is a no-op because `peak ≤ global_limit ≤ min
per-bin limit`. -/
theorem gaussian_main_shape {u : ℕ → ℝ} {k : ℕ} {baseline : List ℝ}
    {c : Constraints} {scale : ℝ} {d : List ℝ} {k' : ℕ}
    (hu : ∀ j, 0 ≤ u j ∧ u j ≤ 1) (hscale0 : 0 < scale) (hscale1 : scale ≤ 1)
    (h : gaussian_delta_profile u k baseline c scale = some (d, k')) :
    d = List.replicate baseline.length 0 ∨
    ∃ peak sigma center, 0 < peak ∧ 0 < sigma ∧
      peak / c.max_second_derivative ≤ sigma ^ 2 ∧
      d = (List.range baseline.length).map
        (fun (i : ℕ) => peak * Real.exp (-0.5 * (((i : ℝ) - center) / sigma) ^ 2)) := by
  have hne : baseline ≠ [] := by
    intro hnil
    rw [hnil] at h
    simp [gaussian_delta_profile, listMin] at h
  have hpbl : perBinLimit baseline c ≠ [] := by simp [perBinLimit, hne]
  obtain ⟨mn, hmn⟩ := listMin_isSome hpbl
  have hmn' : listMin (baseline.map
      (fun b => min c.max_bin_delta_nm (b * c.max_bin_delta_ratio))) = some mn := hmn
  simp only [gaussian_delta_profile, hmn'] at h
  by_cases h1 : mn * scale ≤ 0 ∨ c.max_second_derivative ≤ 0
  · rw [if_pos h1] at h
    simp only [Option.some.injEq, Prod.mk.injEq] at h
    exact Or.inl h.1.symm
  · rw [if_neg h1] at h
    push_neg at h1
    obtain ⟨hgl, hmsd⟩ := h1
    by_cases h2 : (uniform u k 0 (mn * scale)).1 ≤ 0
    · rw [if_pos h2] at h
      simp only [Option.some.injEq, Prod.mk.injEq] at h
      exact Or.inl h.1.symm
    · rw [if_neg h2] at h
      simp only [Option.some.injEq, Prod.mk.injEq] at h
      obtain ⟨hd, _⟩ := h
      right
      rw [not_le] at h2
      set peak := (uniform u k 0 (mn * scale)).1 with hpeak_def
      set min_sigma := Real.sqrt (peak / c.max_second_derivative) with hms_def
      set max_sigma := max (baseline.length : ℝ) (min_sigma + 0.1) with hxs_def
      set sigma := (uniform u (uniform u k 0 (mn * scale)).2 min_sigma max_sigma).1
        with hsig_def
      set center := (uniform u (uniform u (uniform u k 0 (mn * scale)).2 min_sigma
        max_sigma).2 0 ((baseline.length : ℝ) - 1)).1 with hc_def
      have hms_nonneg : 0 ≤ peak / c.max_second_derivative :=
        le_of_lt (div_pos h2 hmsd)
      have hms_pos : 0 < min_sigma := Real.sqrt_pos.mpr (div_pos h2 hmsd)
      have hms_le : min_sigma ≤ max_sigma := by
        refine le_trans ?_ (le_max_right _ _)
        norm_num
      have hsig_mem := uniform_mem hms_le (hu (uniform u k 0 (mn * scale)).2).1
        (hu (uniform u k 0 (mn * scale)).2).2
      have hsig_pos : 0 < sigma := lt_of_lt_of_le hms_pos hsig_mem.1
      have hsig_sq : peak / c.max_second_derivative ≤ sigma ^ 2 := by
        have hsq := pow_le_pow_left₀ (Real.sqrt_nonneg _) hsig_mem.1 2
        rwa [Real.sq_sqrt hms_nonneg] at hsq
      refine ⟨peak, sigma, center, h2, hsig_pos, hsig_sq, ?_⟩
      -- the clamp never binds: `peak ≤ global_limit ≤ mn ≤ per-bin limit`
      have hmn_pos : 0 < mn := by
        rcases mul_pos_iff.mp hgl with ⟨hm, _⟩ | ⟨_, hs⟩
        · exact hm
        · exact absurd hscale0 (not_lt.mpr (le_of_lt hs))
      have hpeak_le_gl : peak ≤ mn * scale := by
        rw [hpeak_def]
        have := uniform_mem (le_of_lt hgl) (hu k).1 (hu k).2
        simpa [uniform] using this.2
      have hpeak_le_mn : peak ≤ mn := by
        have : mn * scale ≤ mn * 1 := mul_le_mul_of_nonneg_left hscale1 (le_of_lt hmn_pos)
        simpa using le_trans hpeak_le_gl this
      rw [← hd, gaussian_profile_of]
      refine List.map_congr_left ?_
      intro i hi
      have hval_pos : 0 < peak * Real.exp (-0.5 * (((i : ℝ) - center) / sigma) ^ 2) :=
        mul_pos h2 (Real.exp_pos _)
      have hval_le : peak * Real.exp (-0.5 * (((i : ℝ) - center) / sigma) ^ 2) ≤ peak := by
        have hexp : Real.exp (-0.5 * (((i : ℝ) - center) / sigma) ^ 2) ≤ 1 := by
          rw [Real.exp_le_one_iff]
          nlinarith [sq_nonneg (((i : ℝ) - center) / sigma)]

        nlinarith
      have hi' : i < baseline.length := List.mem_range.mp hi
      have hmem : (baseline.map (fun b => min c.max_bin_delta_nm
          (b * c.max_bin_delta_ratio))).getD i 0 ∈
          baseline.map (fun b => min c.max_bin_delta_nm (b * c.max_bin_delta_ratio)) := by
        rw [List.getD_eq_getElem _ 0 (by simpa using hi')]
        exact List.getElem_mem _
      have hL : peak ≤ (baseline.map (fun b => min c.max_bin_delta_nm
          (b * c.max_bin_delta_ratio))).getD i 0 :=
        le_trans hpeak_le_mn (listMin_le hmn' _ hmem)
      rw [pyClamp, min_eq_right (le_trans hval_le hL), max_eq_right (le_of_lt hval_pos)]


/-- `getD` into a zip of two lists, below both lengths. -/
theorem zip_getD {l1 l2 : List ℝ} : ∀ {j : ℕ}, j < l1.length → j < l2.length →
    (l1.zip l2).getD j (0, 0) = (l1.getD j 0, l2.getD j 0) := by
  induction l1 generalizing l2 with
  | nil => intro j h1 _; simp at h1
  | cons x xs ih =>
    intro j h1 h2
    match l2, j with
    | [], _ => simp at h2
    | y :: ys, 0 => simp [List.getD]
    | y :: ys, j + 1 =>
      simp only [List.zip_cons_cons, List.getD_cons_succ]
      exact ih (by simpa using h1) (by simpa using h2)

/-- What passing the per-bin loop means: every bin has a valid baseline
and respects both the absolute and the relative cap. -/
theorem checkBins_ok_bounds {nm ratio : ℝ} : ∀ {i : ℕ} {ps : List (ℝ × ℝ)},
    checkBins i ps nm ratio = .ok () → ∀ j < ps.length,
      0 < (ps.getD j (0, 0)).2 ∧ |(ps.getD j (0, 0)).1| ≤ nm ∧
      |(ps.getD j (0, 0)).1| / (ps.getD j (0, 0)).2 ≤ ratio := by
  intro i ps
  induction ps generalizing i with
  | nil => intro _ j hj; simp at hj
  | cons p rest ih =>
    intro h j hj
    obtain ⟨d, b⟩ := p
    unfold checkBins at h
    by_cases hb : b ≤ 0
    · rw [if_pos hb] at h; exact absurd h (by simp)
    · rw [if_neg hb] at h
      by_cases habs : nm < |d|
      · rw [if_pos habs] at h; exact absurd h (by simp)
      · rw [if_neg habs] at h
        by_cases hrat : ratio < |d| / b
        · rw [if_pos hrat] at h; exact absurd h (by simp)
        · rw [if_neg hrat] at h
          match j with
          | 0 =>
            simp only [List.getD_cons_zero]
            exact ⟨not_le.mp hb, not_lt.mp habs, not_lt.mp hrat⟩
          | j + 1 =>
            simp only [List.getD_cons_succ]
            exact ih h j (by simpa using hj)

/-- What passing the smoothness loop means: every second difference of the
scanned list is within the bound. -/
theorem secondDiffCheck_ok_bounds {msd : ℝ} : ∀ {i : ℕ} {l : List ℝ},
    secondDiffCheck i l msd = .ok () → ∀ j, j + 2 < l.length →
      |l.getD (j + 2) 0 - 2 * l.getD (j + 1) 0 + l.getD j 0| ≤ msd := by
  intro i l
  induction l generalizing i with
  | nil => intro _ j hj; simp at hj
  | cons a rest ih =>
    intro h j hj
    match rest, j with
    | [], _ => simp at hj
    | [b], _ => simp at hj
    | b :: cc :: tl, j =>
      unfold secondDiffCheck at h
      by_cases hsd : msd < |cc - 2 * b + a|
      · rw [if_pos hsd] at h; exact absurd h (by simp)
      · rw [if_neg hsd] at h
        match j with
        | 0 =>
          simp only [List.getD_cons_zero, List.getD_cons_succ]
          exact not_lt.mp hsd
        | j + 1 =>
          simp only [List.getD_cons_succ]
          exact ih h j (by simpa using hj)

theorem checkParam_ok {p : String} {v : ℝ} {rng : Option (ℝ × ℝ)}
    (h : checkParam p v rng = .ok ()) :
    ∀ lo hi, rng = some (lo, hi) → lo ≤ v ∧ v ≤ hi := by
  intro lo hi hrng
  subst hrng
  by_cases hin : lo ≤ v ∧ v ≤ hi
  · exact hin
  · exact absurd h (by simp [checkParam, hin])

/-- What passing the calibration loop means: every configured range
contains the proposed value. -/
theorem checkCalibration_ok {cal : Calibration} {r : CalRanges}
    (h : checkCalibration cal r = .ok ()) :
    (∀ lo hi, r.afr_target = some (lo, hi) →
      lo ≤ cal.afr_target ∧ cal.afr_target ≤ hi) ∧
    (∀ lo hi, r.ign_timing_deg = some (lo, hi) →
      lo ≤ cal.ign_timing_deg ∧ cal.ign_timing_deg ≤ hi) ∧
    (∀ lo hi, r.boost_target_psi = some (lo, hi) →
      lo ≤ cal.boost_target_psi ∧ cal.boost_target_psi ≤ hi) := by
  unfold checkCalibration at h
  cases ha : checkParam "afr_target" cal.afr_target r.afr_target with
  | error e => rw [ha] at h; exact absurd h (by simp)
  | ok va =>
    rcases va
    rw [ha] at h
    cases hi : checkParam "ign_timing_deg" cal.ign_timing_deg r.ign_timing_deg with
    | error e => rw [hi] at h; exact absurd h (by simp)
    | ok vi =>
      rcases vi
      rw [hi] at h
      exact ⟨checkParam_ok ha, checkParam_ok hi, checkParam_ok h⟩

/-- Inversion of `tailChecks`: acceptance passes the smoothness scan (for
length ≥ 3) and the calibration scan, and returns the warnings intact. -/
theorem tailChecks_ok {delta : List ℝ} {cal : Calibration} {c : Constraints}
    {ws0 ws : List Warning} (h : tailChecks delta cal c ws0 = .ok ws) :
    (3 ≤ delta.length → secondDiffCheck 1 delta c.max_second_derivative = .ok ()) ∧
    checkCalibration cal c.calibration_ranges = .ok () ∧ ws = ws0 := by
  unfold tailChecks at h
  by_cases hlen : 3 ≤ delta.length
  · rw [if_pos hlen] at h
    have hsd : secondDiffCheck 1 delta c.max_second_derivative = .ok () := by
      cases hx : secondDiffCheck 1 delta c.max_second_derivative with
      | error e => rw [hx] at h; exact absurd h (by simp)
      | ok v => rfl
    rw [hsd] at h
    have hcc : checkCalibration cal c.calibration_ranges = .ok () := by
      cases hx : checkCalibration cal c.calibration_ranges with
      | error e => rw [hx] at h; exact absurd h (by simp)
      | ok v => rfl
    rw [hcc] at h
    simp only [Except.ok.injEq] at h
    exact ⟨fun _ => hsd, hcc, h.symm⟩
  · rw [if_neg hlen] at h
    simp only at h
    have hcc : checkCalibration cal c.calibration_ranges = .ok () := by
      cases hx : checkCalibration cal c.calibration_ranges with
      | error e => rw [hx] at h; exact absurd h (by simp)
      | ok v => rfl
    rw [hcc] at h
    simp only [Except.ok.injEq] at h
    exact ⟨fun hl => absurd hl hlen, hcc, h.symm⟩

/-- Inversion of `peakAndRest`: acceptance bounds the peak-gain ratio and
passes the tail checks. -/
theorem peakAndRest_ok {delta : List ℝ} {cal : Calibration} {c : Constraints}
    {bp pp : ℝ} {ws : List Warning} (h : peakAndRest delta cal c bp pp = .ok ws) :
    (0 < bp → (pp - bp) / bp ≤ c.max_peak_gain_ratio) ∧
    (3 ≤ delta.length → secondDiffCheck 1 delta c.max_second_derivative = .ok ()) ∧
    checkCalibration cal c.calibration_ranges = .ok () := by
  unfold peakAndRest at h
  by_cases hbp : 0 < bp
  · rw [if_pos hbp] at h
    by_cases hpg : c.max_peak_gain_ratio < (pp - bp) / bp
    · rw [if_pos hpg] at h; exact absurd h (by simp)
    · rw [if_neg hpg] at h
      obtain ⟨hsd, hcc, _⟩ := tailChecks_ok h
      exact ⟨fun _ => not_lt.mp hpg, hsd, hcc⟩
  · rw [if_neg hbp] at h
    obtain ⟨hsd, hcc, _⟩ := tailChecks_ok h
    exact ⟨fun hbp' => absurd hbp' hbp, hsd, hcc⟩

/-- Inversion of `validate_proposal` on acceptance. -/
theorem validate_ok_parts {delta : List ℝ} {cal : Calibration}
    {bl : List ℝ} {rpm : List ℤ} {c : Constraints} {ws : List Warning}
    (h : validate_proposal delta cal bl rpm c = some (.ok ws)) :
    delta.length = rpm.length ∧ bl.length = rpm.length ∧
    checkBins 0 (delta.zip bl) c.max_bin_delta_nm c.max_bin_delta_ratio = .ok () ∧
    ∃ bp pp, listMax bl = some bp ∧
      listMax (List.zipWith (· + ·) bl delta) = some pp ∧
      peakAndRest delta cal c bp pp = .ok ws := by
  unfold validate_proposal at h
  by_cases h1 : delta.length ≠ rpm.length
  · rw [if_pos h1] at h; exact absurd h (by simp)
  · rw [if_neg h1] at h
    by_cases h2 : bl.length ≠ rpm.length
    · rw [if_pos h2] at h; exact absurd h (by simp)
    · rw [if_neg h2] at h
      have hcb : checkBins 0 (delta.zip bl) c.max_bin_delta_nm c.max_bin_delta_ratio = .ok () := by
        cases hx : checkBins 0 (delta.zip bl) c.max_bin_delta_nm c.max_bin_delta_ratio with
        | error e => rw [hx] at h; exact absurd h (by simp)
        | ok v => rfl
      rw [hcb] at h
      cases hbp : listMax bl with
      | none => rw [hbp] at h; exact absurd h (by simp)
      | some bp =>
        cases hpp : listMax (List.zipWith (· + ·) bl delta) with
        | none => rw [hbp, hpp] at h; exact absurd h (by simp)
        | some pp =>
          rw [hbp, hpp] at h
          simp only [Option.some.injEq] at h
          exact ⟨not_ne_iff.mp h1, not_ne_iff.mp h2, hcb, bp, pp, rfl, rfl, h⟩


/-- A uniform draw over an (oriented) configured range passes the range
check of the validator, provided the configured range is ordered. -/
theorem checkParam_uniform {u : ℕ → ℝ} {k : ℕ} {p : String}
    {rng : Option (ℝ × ℝ)} {dflt : ℝ × ℝ} (hu0 : 0 ≤ u k) (hu1 : u k ≤ 1)
    (hord : ∀ lo hi, rng = some (lo, hi) → lo ≤ hi) :
    checkParam p (uniform u k (orient (rng.getD dflt)).1
      (orient (rng.getD dflt)).2).1 rng = .ok () := by
  cases rng with
  | none => rfl
  | some pr =>
    obtain ⟨lo, hi⟩ := pr
    have hlohi : lo ≤ hi := hord lo hi rfl
    rw [Option.getD_some, orient_of_ordered hlohi]
    have hmem := uniform_mem hlohi hu0 hu1
    simp only [checkParam]
    rw [if_pos ⟨hmem.1, hmem.2⟩]

/-- The calibration sampled by `_pick_calibration` passes the validator's
range check whenever the configured ranges are ordered. -/
theorem checkCalibration_pick {u : ℕ → ℝ} {k : ℕ} {c : Constraints}
    (hu : ∀ j, 0 ≤ u j ∧ u j ≤ 1) (hwf : ConstraintsWF c) :
    checkCalibration (pick_calibration u k c).1 c.calibration_ranges = .ok () := by
  simp only [checkCalibration, pick_calibration]
  rw [checkParam_uniform (hu k).1 (hu k).2 hwf.afr_ordered]
  rw [checkParam_uniform (hu _).1 (hu _).2 hwf.ign_ordered]
  rw [checkParam_uniform (hu _).1 (hu _).2 hwf.boost_ordered]

/-- The zero delta passes the per-bin caps against any positive baseline,
for non-negative caps. -/
theorem checkBins_zip_zero {nm ratio : ℝ} (hnm : 0 ≤ nm) (hr : 0 ≤ ratio) :
    ∀ (i : ℕ) (bl : List ℝ), (∀ b ∈ bl, 0 < b) →
      checkBins i ((List.replicate bl.length 0).zip bl) nm ratio = .ok () := by
  intro i bl
  induction bl generalizing i with
  | nil => intro _; rfl
  | cons b bs ih =>
    intro hpos
    have hb : 0 < b := hpos b (List.mem_cons_self _ _)
    simp only [List.length_cons, List.replicate_succ, List.zip_cons_cons]
    unfold checkBins
    rw [if_neg (not_le.mpr hb)]
    rw [if_neg (by simpa using hnm)]
    rw [if_neg (by simp [abs_zero, not_lt]; positivity)]
    exact ih (i + 1) (fun x hx => hpos x (List.mem_cons_of_mem _ hx))

/-- The zero delta passes the smoothness scan for a non-negative bound. -/
theorem secondDiff_replicate {msd : ℝ} (h : 0 ≤ msd) : ∀ (m i : ℕ),
    secondDiffCheck i (List.replicate m (0 : ℝ)) msd = .ok () := by
  intro m
  induction m with
  | zero => intro i; rfl
  | succ m ih =>
    intro i
    match m, ih with
    | 0, _ => rfl
    | 1, _ => rfl
    | m'' + 2, ih =>
      show secondDiffCheck i (0 :: 0 :: 0 :: List.replicate m'' 0) msd = .ok ()
      unfold secondDiffCheck
      rw [if_neg (by simpa using h)]
      have := ih i.succ
      simpa [List.replicate_succ] using this

/-- The never-validated default candidate of the search loop — the zero
delta with a freshly sampled calibration — would in fact be accepted by
the validator with no warnings, for well-formed inputs. -/
theorem validate_zero_ok {bl : List ℝ} {rpm : List ℤ} {c : Constraints}
    {cal : Calibration} (hne : bl ≠ []) (hpos : ∀ b ∈ bl, 0 < b)
    (hlen : bl.length = rpm.length) (hwf : ConstraintsWF c)
    (hcc : checkCalibration cal c.calibration_ranges = .ok ()) :
    validate_proposal (List.replicate bl.length 0) cal bl rpm c = some (.ok []) := by
  obtain ⟨bp, hbp⟩ := listMax_isSome hne
  have hbp_pos : 0 < bp := hpos bp (listMax_mem hbp)
  unfold validate_proposal
  rw [if_neg (by simp [hlen])]
  rw [if_neg (by simp [hlen])]
  rw [checkBins_zip_zero hwf.nm_nonneg hwf.ratio_nonneg 0 bl hpos]
  rw [zipWith_add_replicate_zero, hbp]
  show some (peakAndRest (List.replicate bl.length 0) cal c bp bp) = some (.ok [])
  have hpgr : (bp - bp) / bp = 0 := by simp
  unfold peakAndRest
  rw [if_pos hbp_pos, hpgr]
  rw [if_neg (not_lt.mpr hwf.peak_nonneg)]
  rw [if_neg (by norm_num)]
  unfold tailChecks
  by_cases hlen3 : 3 ≤ (List.replicate bl.length (0 : ℝ)).length
  · rw [if_pos hlen3, secondDiff_replicate hwf.msd_nonneg, hcc]
  · rw [if_neg hlen3, hcc]


/-- With a non-empty baseline, the validator never hits the uncaught
`max([])` crash. -/
theorem validate_ne_none {delta : List ℝ} {cal : Calibration} {bl : List ℝ}
    {rpm : List ℤ} {c : Constraints} (hne : bl ≠ []) :
    validate_proposal delta cal bl rpm c ≠ none := by
  unfold validate_proposal
  by_cases h1 : delta.length ≠ rpm.length
  · rw [if_pos h1]; simp
  · rw [if_neg h1]
    by_cases h2 : bl.length ≠ rpm.length
    · rw [if_pos h2]; simp
    · rw [if_neg h2]
      cases hcb : checkBins 0 (delta.zip bl) c.max_bin_delta_nm c.max_bin_delta_ratio with
      | error e => simp
      | ok v =>
        rcases v
        obtain ⟨bp, hbp⟩ := listMax_isSome hne
        have hzne : List.zipWith (· + ·) bl delta ≠ [] := by
          have hlz : (List.zipWith (· + ·) bl delta).length = min bl.length delta.length := by
            simp
          intro hz
          rw [hz] at hlz
          simp only [List.length_nil] at hlz
          rcases Nat.min_eq_zero_iff.mp hlz.symm with h | h
          · exact hne (List.length_eq_zero.mp h)
          · rw [not_ne_iff.mp h1, ← not_ne_iff.mp h2] at h
            exact hne (List.length_eq_zero.mp h)
        obtain ⟨pp, hpp⟩ := listMax_isSome hzne
        rw [hbp, hpp]
        simp

/-- One search cycle always produces a next state (non-empty baseline),
counts itself in `cycles_used`, and either keeps the previous best intact
or replaces it with a strictly better, validator-accepted candidate of the
baseline's length. -/
theorem opt_step_cases {baseline : List ℝ} {rpm : List ℤ} {c : Constraints}
    {budget : ℕ} {u : ℕ → ℝ} (hne : baseline ≠ []) (cyc : ℕ) (s : SState) :
    ∃ s', opt_step baseline rpm c budget u cyc s = some s' ∧
      s'.cycles_used = s.cycles_used + 1 ∧
      ((s'.best_delta = s.best_delta ∧ s'.best_calibration = s.best_calibration ∧
        s'.best_score = s.best_score ∧ s'.best_warnings = s.best_warnings) ∨
       (s'.best_delta.length = baseline.length ∧
        validate_proposal s'.best_delta s'.best_calibration baseline rpm c =
          some (.ok s'.best_warnings) ∧
        s.best_score < s'.best_score)) := by
  obtain ⟨cd, k1, hgen, hlen, _⟩ := @gaussian_total u s.idx baseline c
    (1 - ((cyc : ℝ) / ((max budget 1 : ℕ) : ℝ)) * 0.5) hne
  cases hv : validate_proposal cd (pick_calibration u k1 c).1 baseline rpm c with
  | none => exact absurd hv (validate_ne_none hne)
  | some res =>
    cases res with
    | error e =>
      have hstep_eq : opt_step baseline rpm c budget u cyc s = some
          ⟨(pick_calibration u k1 c).2, s.best_delta, s.best_calibration,
            s.best_score, s.best_warnings, s.cycles_used + 1⟩ := by
        simp only [opt_step, hgen, hv]
      exact ⟨_, hstep_eq, rfl, Or.inl ⟨rfl, rfl, rfl, rfl⟩⟩
    | ok ws =>
      have hstep_eq : opt_step baseline rpm c budget u cyc s =
          (if s.best_score < compute_score (List.zipWith (· + ·) baseline cd) then
            some ⟨(pick_calibration u k1 c).2, cd, (pick_calibration u k1 c).1,
              compute_score (List.zipWith (· + ·) baseline cd), ws, s.cycles_used + 1⟩
          else
            some ⟨(pick_calibration u k1 c).2, s.best_delta, s.best_calibration,
              s.best_score, s.best_warnings, s.cycles_used + 1⟩) := by
        simp only [opt_step, hgen, hv]
      by_cases himp : s.best_score < compute_score (List.zipWith (· + ·) baseline cd)
      · rw [if_pos himp] at hstep_eq
        exact ⟨_, hstep_eq, rfl, Or.inr ⟨hlen, hv, himp⟩⟩
      · rw [if_neg himp] at hstep_eq
        exact ⟨_, hstep_eq, rfl, Or.inl ⟨rfl, rfl, rfl, rfl⟩⟩

theorem search_fold_succ (baseline : List ℝ) (rpm : List ℤ) (c : Constraints)
    (budget : ℕ) (u : ℕ → ℝ) (k : ℕ) :
    search_fold baseline rpm c budget u (k + 1) =
      (search_fold baseline rpm c budget u k).bind
        (opt_step baseline rpm c budget u k) := by
  unfold search_fold
  rw [List.range_succ, List.foldl_append]
  rfl

/-- Main induction over the search loop: any property of the state that
holds initially and is preserved by every (reachable) cycle holds of the
state after `k` cycles; the loop always completes and counts every
cycle. -/
theorem search_fold_inv {baseline : List ℝ} {rpm : List ℤ} {c : Constraints}
    {budget : ℕ} {u : ℕ → ℝ} (hne : baseline ≠ []) (P : SState → Prop)
    (h0 : P (init_state baseline c u)) (k : ℕ)
    (hstep : ∀ cyc s s', cyc < k →
      search_fold baseline rpm c budget u cyc = some s →
      opt_step baseline rpm c budget u cyc s = some s' → P s → P s') :
    ∃ s, search_fold baseline rpm c budget u k = some s ∧ P s ∧
      s.cycles_used = k := by
  induction k with
  | zero =>
    refine ⟨init_state baseline c u, rfl, h0, ?_⟩
    unfold init_state
    rfl
  | succ k ih =>
    obtain ⟨s, hs, hPs, hcy⟩ := ih
      (fun cyc s s' hlt => hstep cyc s s' (Nat.lt_succ_of_lt hlt))
    obtain ⟨s', hs', hcy', _⟩ := @opt_step_cases baseline rpm c budget u hne k s
    refine ⟨s', ?_, hstep k s s' (Nat.lt_succ_self k) hs hs' hPs, by omega⟩
    rw [search_fold_succ, hs]
    simpa using hs'

/-- The length of the best delta is an invariant of the loop. -/
theorem search_core_total {baseline : List ℝ} {rpm : List ℤ} {c : Constraints}
    {budget : ℕ} {u : ℕ → ℝ} (hne : baseline ≠ []) :
    ∃ s, search_core baseline rpm c budget u = some s ∧
      s.best_delta.length = baseline.length ∧ s.cycles_used = budget := by
  obtain ⟨s, hs, hP, hcy⟩ := search_fold_inv hne
    (fun s => s.best_delta.length = baseline.length)
    (by unfold init_state; simp) budget
    (by
      intro cyc s s' hlt hreach hstep hP
      obtain ⟨s'', hs'', _, hdisj⟩ := @opt_step_cases baseline rpm c budget u hne cyc s
      rw [hstep] at hs''
      obtain rfl : s' = s'' := by simpa using hs''
      rcases hdisj with ⟨hd, _, _, _⟩ | ⟨hlen, _, _⟩
      · rw [hd]; exact hP
      · exact hlen)
  exact ⟨s, hs, hP, hcy⟩

/-- Assembly of the final result from the final loop state: projections of
the returned record, with the rounded metric fields. -/
theorem run_optimization_assemble {baseline : List ℝ} {rpm : List ℤ}
    {c : Constraints} {budget : ℕ} {u : ℕ → ℝ} {s : SState}
    (hne : baseline ≠ [])
    (hcore : search_core baseline rpm c budget u = some s)
    (hlen : s.best_delta.length = baseline.length) :
    ∃ r bp pp, run_optimization baseline rpm c budget u = some r ∧
      listMax baseline = some bp ∧
      listMax (List.zipWith (· + ·) baseline s.best_delta) = some pp ∧
      r.torque_delta_nm = s.best_delta ∧
      r.calibration = s.best_calibration ∧
      r.warnings = s.best_warnings ∧
      r.cycles_used = s.cycles_used ∧
      r.best_score = pyRound s.best_score 4 ∧
      r.estimated_peak_gain_ratio =
        pyRound (if 0 < bp then (pp - bp) / bp else 0) 6 ∧
      r.confidence = pyRound (pyClamp
        (if 0 < c.max_peak_gain_ratio then
          (if 0 < bp then (pp - bp) / bp else 0) / c.max_peak_gain_ratio
        else 0) 0 1) 4 := by
  obtain ⟨bp, hbp⟩ := listMax_isSome hne
  have hzne : List.zipWith (· + ·) baseline s.best_delta ≠ [] := by
    have hlz : (List.zipWith (· + ·) baseline s.best_delta).length =
        min baseline.length s.best_delta.length := by simp
    intro hz
    rw [hz] at hlz
    simp only [List.length_nil] at hlz
    rw [hlen, min_self] at hlz
    exact hne (List.length_eq_zero.mp hlz.symm)
  obtain ⟨pp, hpp⟩ := listMax_isSome hzne
  have hrun : run_optimization baseline rpm c budget u = some
      ⟨s.best_delta, s.best_calibration,
        pyRound (pyClamp (if 0 < c.max_peak_gain_ratio then
          (if 0 < bp then (pp - bp) / bp else 0) / c.max_peak_gain_ratio
          else 0) 0 1) 4,
        pyRound (if 0 < bp then (pp - bp) / bp else 0) 6,
        s.cycles_used, pyRound s.best_score 4, s.best_warnings⟩ := by
    simp only [run_optimization, hbp, hcore, hpp]
  exact ⟨_, bp, pp, hrun, hbp, hpp, rfl, rfl, rfl, rfl, rfl, rfl, rfl⟩


/-- The first bin whose ratio check fails (all earlier bins passing fully,
this bin passing the absolute check) is the one `checkBins` reports, no
matter what later bins contain. -/
theorem checkBins_first_ratio {nm ratio : ℝ} : ∀ (k : ℕ) (ps : List (ℝ × ℝ)) (i : ℕ),
    (∀ j < i, 0 < (ps.getD j (0, 0)).2 ∧ |(ps.getD j (0, 0)).1| ≤ nm ∧
      |(ps.getD j (0, 0)).1| / (ps.getD j (0, 0)).2 ≤ ratio) →
    i < ps.length →
    0 < (ps.getD i (0, 0)).2 → |(ps.getD i (0, 0)).1| ≤ nm →
    ratio < |(ps.getD i (0, 0)).1| / (ps.getD i (0, 0)).2 →
    checkBins k ps nm ratio =
      .error (.binRatioExceeds (k + i) (|(ps.getD i (0, 0)).1| / (ps.getD i (0, 0)).2)) := by
  intro k ps
  induction ps generalizing k with
  | nil => intro i _ hi; simp at hi
  | cons p rest ih =>
    intro i hprev hi hb habs hrat
    obtain ⟨d, b⟩ := p
    match i with
    | 0 =>
      simp only [List.getD_cons_zero] at hb habs hrat
      unfold checkBins
      rw [if_neg (not_le.mpr hb), if_neg (not_lt.mpr habs), if_pos hrat]
      simp only [List.getD_cons_zero, Nat.add_zero]
    | i + 1 =>
      have h0 := hprev 0 (Nat.succ_pos i)
      simp only [List.getD_cons_zero] at h0
      simp only [List.getD_cons_succ] at hprev hb habs hrat ⊢
      unfold checkBins
      rw [if_neg (not_le.mpr h0.1), if_neg (not_lt.mpr h0.2.1), if_neg (not_lt.mpr h0.2.2)]
      have := ih (k + 1) i (fun j hj => hprev (j + 1) (by omega)) (by simpa using hi)
        hb habs hrat
      rw [this]
      congr 2
      omega

/-- The final state of the search loop holds a candidate-with-warnings
triple that the validator accepts, for well-formed inputs: either it is
the last accepted candidate (accepted by definition, and the validator is
pure), or it is the zero-delta default with the freshly sampled
calibration, which `validate_zero_ok` shows acceptable. -/
theorem final_state_validated {baseline : List ℝ} {rpm : List ℤ}
    {c : Constraints} {budget : ℕ} {u : ℕ → ℝ} (hne : baseline ≠ [])
    (hpos : ∀ b ∈ baseline, 0 < b) (hlen : baseline.length = rpm.length)
    (hwf : ConstraintsWF c) (hu : ∀ j, 0 ≤ u j ∧ u j ≤ 1) :
    ∃ s, search_core baseline rpm c budget u = some s ∧
      s.best_delta.length = baseline.length ∧
      validate_proposal s.best_delta s.best_calibration baseline rpm c =
        some (.ok s.best_warnings) := by
  obtain ⟨s, hs, hP, _⟩ := search_fold_inv hne
    (fun s => s.best_delta.length = baseline.length ∧
      validate_proposal s.best_delta s.best_calibration baseline rpm c =
        some (.ok s.best_warnings))
    (by
      constructor
      · unfold init_state; simp
      · show validate_proposal (List.replicate baseline.length 0)
          (pick_calibration u 0 c).1 baseline rpm c = some (.ok [])
        exact validate_zero_ok hne hpos hlen hwf (checkCalibration_pick hu hwf))
    budget
    (by
      intro cyc s s' hlt hreach hstep hP
      obtain ⟨s'', hs'', _, hdisj⟩ := @opt_step_cases baseline rpm c budget u hne cyc s
      rw [hstep] at hs''
      obtain rfl : s' = s'' := by simpa using hs''
      rcases hdisj with ⟨hd, hc, _, hw⟩ | ⟨hlen', hv, _⟩
      · rw [hd, hc, hw]; exact hP
      · exact ⟨hlen', hv⟩)
  exact ⟨s, hs, hP.1, hP.2⟩

/-- C1.  Determinism: `run_optimization` is a pure function of the
baseline, the constraints, the cycle budget and the seed (through the
stream the seed determines); two independent calls with the same
arguments return identical results — in particular the same
`torque_delta_nm` list and the same calibration mapping. -/
theorem c1_run_optimization_deterministic (streamOf : ℤ → ℕ → ℝ)
    (baseline : List ℝ) (rpm : List ℤ) (c : Constraints) (budget : ℕ)
    (seed1 seed2 : ℤ) (h : seed1 = seed2) :
    run_optimization baseline rpm c budget (streamOf seed1) =
      run_optimization baseline rpm c budget (streamOf seed2) ∧
    (run_optimization baseline rpm c budget (streamOf seed1)).map
        OptResult.torque_delta_nm =
      (run_optimization baseline rpm c budget (streamOf seed2)).map
        OptResult.torque_delta_nm ∧
    (run_optimization baseline rpm c budget (streamOf seed1)).map
        OptResult.calibration =
      (run_optimization baseline rpm c budget (streamOf seed2)).map
        OptResult.calibration := by
  subst h
  exact ⟨rfl, rfl, rfl⟩

theorem c1_witness :
    (0 : ℤ) = 0 ∧
    (run_optimization [200] [1000] ⟨0.02, 8, 0.03, 0.15, ⟨none, none, none⟩⟩ 1
        ((fun _ _ => (0 : ℝ)) (0 : ℤ)) =
      run_optimization [200] [1000] ⟨0.02, 8, 0.03, 0.15, ⟨none, none, none⟩⟩ 1
        ((fun _ _ => (0 : ℝ)) (0 : ℤ)) ∧
    (run_optimization [200] [1000] ⟨0.02, 8, 0.03, 0.15, ⟨none, none, none⟩⟩ 1
        ((fun _ _ => (0 : ℝ)) (0 : ℤ))).map OptResult.torque_delta_nm =
      (run_optimization [200] [1000] ⟨0.02, 8, 0.03, 0.15, ⟨none, none, none⟩⟩ 1
        ((fun _ _ => (0 : ℝ)) (0 : ℤ))).map OptResult.torque_delta_nm ∧
    (run_optimization [200] [1000] ⟨0.02, 8, 0.03, 0.15, ⟨none, none, none⟩⟩ 1
        ((fun _ _ => (0 : ℝ)) (0 : ℤ))).map OptResult.calibration =
      (run_optimization [200] [1000] ⟨0.02, 8, 0.03, 0.15, ⟨none, none, none⟩⟩ 1
        ((fun _ _ => (0 : ℝ)) (0 : ℤ))).map OptResult.calibration) :=
  ⟨rfl, c1_run_optimization_deterministic (fun _ _ => (0 : ℝ)) [200] [1000]
    ⟨0.02, 8, 0.03, 0.15, ⟨none, none, none⟩⟩ 1 0 0 rfl⟩

/-- C5 (counterexample).  With `max_bin_delta_nm = -1` and baseline `[1]`
the per-bin ceiling is `[-1]`, `global_limit ≤ 0`, and the generator
returns the zero profile, whose entry `0` does not lie in the (empty)
interval `[0, min(max_bin_delta_nm, baseline*ratio)] = [0, -1]`: the
claimed containment fails for a negative ceiling. -/
theorem c5_counterexample :
    gaussian_delta_profile (fun _ => (0 : ℝ)) 0 [1]
      ⟨0.02, -1, 0.03, 0.15, ⟨none, none, none⟩⟩ 1 = some ([0], 0) ∧
    ¬ (0 ≤ (0 : ℝ) ∧ (0 : ℝ) ≤ min (-1 : ℝ) (1 * 0.03)) := by
  constructor
  · norm_num [gaussian_delta_profile, listMin]
  · norm_num

/-- C5 (amended).  On a non-empty baseline the generator's output has the
baseline's length, every entry is non-negative and lies below the per-bin
ceiling `min(max_bin_delta_nm, baseline[i]*max_bin_delta_ratio)` whenever
that ceiling is non-negative (always, for non-negative caps), and when
`global_limit = min(per-bin ceilings) * scale ≤ 0` or
`max_second_derivative ≤ 0` the all-zero profile is returned with no
random draw consumed. -/
theorem c5_candidate_profile_bounds {u : ℕ → ℝ} {k : ℕ} {baseline : List ℝ}
    {c : Constraints} {scale : ℝ} (hne : baseline ≠ []) :
    ∃ d k', gaussian_delta_profile u k baseline c scale = some (d, k') ∧
      d.length = baseline.length ∧
      (∀ i < baseline.length, 0 ≤ d.getD i 0 ∧
        (0 ≤ min c.max_bin_delta_nm (baseline.getD i 0 * c.max_bin_delta_ratio) →
          d.getD i 0 ≤ min c.max_bin_delta_nm
            (baseline.getD i 0 * c.max_bin_delta_ratio))) ∧
      (∀ mn, listMin (perBinLimit baseline c) = some mn →
        mn * scale ≤ 0 ∨ c.max_second_derivative ≤ 0 →
        d = List.replicate baseline.length 0 ∧ k' = k) := by
  obtain ⟨d, k', hgen, hlen, _⟩ := gaussian_total hne
  refine ⟨d, k', hgen, hlen, ?_, ?_⟩
  · intro i hi
    have hb := gaussian_entry_bounds hgen i hi
    have hL : (perBinLimit baseline c).getD i 0 =
        min c.max_bin_delta_nm (baseline.getD i 0 * c.max_bin_delta_ratio) := by
      rw [perBinLimit, List.getD_eq_getElem _ 0 (by simpa using hi),
        List.getElem_map, ← List.getD_eq_getElem _ 0 hi]
    rw [hL] at hb
    exact hb
  · intro mn hmn hzero
    have hz := gaussian_zero_branch (u := u) (k := k) hmn hzero
    rw [hgen] at hz
    simp only [Option.some.injEq, Prod.mk.injEq] at hz
    exact ⟨hz.1, hz.2⟩

theorem c5_witness :
    ([1] : List ℝ) ≠ [] ∧
    (∃ d k', gaussian_delta_profile (fun _ => (0 : ℝ)) 0 [1]
        ⟨0.02, 8, 0.03, 0.15, ⟨none, none, none⟩⟩ 1 = some (d, k') ∧
      d.length = ([1] : List ℝ).length ∧
      (∀ i < ([1] : List ℝ).length, 0 ≤ d.getD i 0 ∧
        (0 ≤ min (8 : ℝ) (([1] : List ℝ).getD i 0 * 0.03) →
          d.getD i 0 ≤ min (8 : ℝ) (([1] : List ℝ).getD i 0 * 0.03))) ∧
      (∀ mn, listMin (perBinLimit [1] ⟨0.02, 8, 0.03, 0.15, ⟨none, none, none⟩⟩) =
          some mn →
        mn * 1 ≤ 0 ∨ (0.15 : ℝ) ≤ 0 →
        d = List.replicate ([1] : List ℝ).length 0 ∧ k' = 0)) :=
  ⟨by simp, @c5_candidate_profile_bounds (fun _ => (0 : ℝ)) 0 [1]
    ⟨0.02, 8, 0.03, 0.15, ⟨none, none, none⟩⟩ 1 (by simp)⟩

/-- C6 (counterexample).  Delta `[0.5, 50]` against baseline `[1, 100]`
with the default constraints: bin 1 violates the absolute cap
(`|50| > 8`), yet the rejection reason is the ratio violation at bin 0
(`0.5/1 > 0.03`) — not an absolute-cap reason — because the code checks
both caps bin by bin, not check 4 over all bins before check 5. -/
theorem c6_counterexample :
    validate_proposal [0.5, 50] ⟨12.5, 0, 0⟩ [1, 100] [1000, 2000]
      ⟨0.02, 8, 0.03, 0.15, ⟨none, none, none⟩⟩ =
      some (.error (.binRatioExceeds 0 0.5)) ∧
    (8 : ℝ) < |(50 : ℝ)| ∧
    (∀ i d, VError.binRatioExceeds 0 0.5 ≠ VError.binDeltaExceeds i d) := by
  refine ⟨?_, by norm_num, fun i d h => VError.noConfusion h⟩
  norm_num [validate_proposal, checkBins, List.zip, abs_of_nonneg]

/-- C6 (amended).  The absolute-cap and ratio checks are interleaved per
bin, in index order: if every bin before `i` passes fully and bin `i`
passes the absolute cap but violates the ratio cap, the rejection names
the ratio violation at bin `i` — regardless of any violation (absolute or
otherwise) at higher-indexed bins. -/
theorem c6_interleaved_per_bin {delta baseline : List ℝ} {rpm : List ℤ}
    {cal : Calibration} {c : Constraints} {i : ℕ}
    (hld : delta.length = rpm.length) (hlb : baseline.length = rpm.length)
    (hprev : ∀ j < i, 0 < baseline.getD j 0 ∧
      |delta.getD j 0| ≤ c.max_bin_delta_nm ∧
      |delta.getD j 0| / baseline.getD j 0 ≤ c.max_bin_delta_ratio)
    (hid : i < delta.length) (hib : i < baseline.length)
    (hbpos : 0 < baseline.getD i 0)
    (habs : |delta.getD i 0| ≤ c.max_bin_delta_nm)
    (hrat : c.max_bin_delta_ratio < |delta.getD i 0| / baseline.getD i 0) :
    validate_proposal delta cal baseline rpm c =
      some (.error (.binRatioExceeds i
        (|delta.getD i 0| / baseline.getD i 0))) := by
  unfold validate_proposal
  rw [if_neg (by simp [hld])]
  rw [if_neg (by simp [hlb])]
  have hcb := @checkBins_first_ratio c.max_bin_delta_nm
    c.max_bin_delta_ratio 0 (delta.zip baseline) i
    (fun j hj => by
      rw [zip_getD (by omega) (by omega)]
      exact hprev j hj)
    (by simp; omega)
    (by rw [zip_getD hid hib]; exact hbpos)
    (by rw [zip_getD hid hib]; exact habs)
    (by rw [zip_getD hid hib]; exact hrat)
  rw [zip_getD hid hib] at hcb
  rw [hcb]
  simp

theorem c6_witness :
    (([0.5, 50] : List ℝ).length = ([1000, 2000] : List ℤ).length ∧
      ([1, 100] : List ℝ).length = ([1000, 2000] : List ℤ).length ∧
      0 < ([1, 100] : List ℝ).getD 0 0 ∧
      |([0.5, 50] : List ℝ).getD 0 0| ≤ (8 : ℝ) ∧
      (0.03 : ℝ) < |([0.5, 50] : List ℝ).getD 0 0| / ([1, 100] : List ℝ).getD 0 0) ∧
    validate_proposal [0.5, 50] ⟨12.5, 0, 0⟩ [1, 100] [1000, 2000]
      ⟨0.02, 8, 0.03, 0.15, ⟨none, none, none⟩⟩ =
      some (.error (.binRatioExceeds 0
        (|([0.5, 50] : List ℝ).getD 0 0| / ([1, 100] : List ℝ).getD 0 0))) :=
  ⟨⟨rfl, rfl, by norm_num [List.getD], by norm_num [List.getD, abs_of_nonneg],
      by norm_num [List.getD, abs_of_nonneg]⟩,
    @c6_interleaved_per_bin [0.5, 50] [1, 100] [1000, 2000] ⟨12.5, 0, 0⟩
      ⟨0.02, 8, 0.03, 0.15, ⟨none, none, none⟩⟩ 0
      rfl rfl (fun j hj => absurd hj (Nat.not_lt_zero j))
      (by norm_num) (by norm_num)
      (by norm_num [List.getD]) (by norm_num [List.getD, abs_of_nonneg])
      (by norm_num [List.getD, abs_of_nonneg])⟩

/-- C8 (counterexample).  Scenario B at the stated constraints (only
`max_second_derivative = 0.15` set, the rest at their defaults, so
`max_peak_gain_ratio = 0.02`): the proposal is rejected, but the reason is
the peak-gain violation (gain `5/200 = 0.025 > 0.02`), which the validator
checks before smoothness — not the smoothness violation at the center
bin. -/
theorem c8_counterexample :
    validate_proposal [0, 0, 5, 0, 0] ⟨12.5, 0, 0⟩ [200, 200, 200, 200, 200]
      [1000, 2000, 3000, 4000, 5000] ⟨0.02, 8, 0.03, 0.15, ⟨none, none, none⟩⟩ =
      some (.error (.peakGainExceeds 0.025)) ∧
    (∀ i sd, VError.peakGainExceeds 0.025 ≠ VError.smoothnessViolation i sd) := by
  refine ⟨?_, fun i sd h => VError.noConfusion h⟩
  norm_num [validate_proposal, checkBins, List.zip, listMax, peakAndRest,
    abs_of_nonneg]

/-- C8 (amended).  Scenario B is rejected for smoothness once the
peak-gain check allows it (with `max_peak_gain_ratio = 0.03` and the other
scenario constraints): the rejection is the smoothness violation at
interior bin 1, the first interior bin in scan order, whose second
difference is `|0 - 2*0 + 5| = 5 > 0.15`; the center bin's second
difference of `10` is never reported because bin 1 fires first. -/
theorem c8_scenario_b_amended :
    validate_proposal [0, 0, 5, 0, 0] ⟨12.5, 0, 0⟩ [200, 200, 200, 200, 200]
      [1000, 2000, 3000, 4000, 5000] ⟨0.03, 8, 0.03, 0.15, ⟨none, none, none⟩⟩ =
      some (.error (.smoothnessViolation 1 5)) ∧
    |(5 : ℝ) - 2 * 0 + 0| = 5 ∧ |(0 : ℝ) - 2 * 5 + 0| = 10 := by
  refine ⟨?_, by norm_num, by norm_num⟩
  norm_num [validate_proposal, checkBins, List.zip, listMax, peakAndRest,
    tailChecks, secondDiffCheck, abs_of_nonneg]

/-- C9.  Scenario C: with the all-zero delta (which passes every earlier
check), a calibration with `afr_target = 10.0` against the configured
range `[11.5, 14.7]` is rejected, and the rejection reason names the
parameter `afr_target` together with the offending value and range. -/
theorem c9_afr_target_range_rejection :
    validate_proposal [0, 0] ⟨10, 2, 7⟩ [200, 200] [1000, 2000]
      ⟨0.02, 8, 0.03, 0.15,
        ⟨some (11.5, 14.7), some (-2, 8), some (0, 22)⟩⟩ =
      some (.error (.calibOutOfRange "afr_target" 10 11.5 14.7)) := by
  norm_num [validate_proposal, checkBins, List.zip, listMax, peakAndRest,
    tailChecks, secondDiffCheck, checkCalibration, checkParam, abs_of_nonneg]

/-- C10.  The metric fields of the returned record are the rounded values
of the assembler's raw quantities — `confidence` to 4 decimal places,
`estimated_peak_gain_ratio` to 6, `best_score` to 4 — and `cycles_used`
always equals the full `cycle_budget` (rejected cycles still count). -/
theorem c10_rounding_and_cycles {baseline : List ℝ} {rpm : List ℤ}
    {c : Constraints} {budget : ℕ} {u : ℕ → ℝ} (hne : baseline ≠ []) :
    ∃ s r bp pp, search_core baseline rpm c budget u = some s ∧
      run_optimization baseline rpm c budget u = some r ∧
      listMax baseline = some bp ∧
      listMax (List.zipWith (· + ·) baseline s.best_delta) = some pp ∧
      r.cycles_used = budget ∧
      r.best_score = pyRound s.best_score 4 ∧
      r.estimated_peak_gain_ratio =
        pyRound (if 0 < bp then (pp - bp) / bp else 0) 6 ∧
      r.confidence = pyRound (pyClamp
        (if 0 < c.max_peak_gain_ratio then
          (if 0 < bp then (pp - bp) / bp else 0) / c.max_peak_gain_ratio
        else 0) 0 1) 4 := by
  obtain ⟨s, hcore, hlen, hcy⟩ := search_core_total hne
  obtain ⟨r, bp, pp, hrun, hbp, hpp, _, _, _, hrc, hrs, hre, hrcf⟩ :=
    run_optimization_assemble hne hcore hlen
  exact ⟨s, r, bp, pp, hcore, hrun, hbp, hpp, by rw [hrc, hcy], hrs, hre, hrcf⟩

theorem c10_witness :
    ([200] : List ℝ) ≠ [] ∧
    (∃ s r bp pp, search_core [200] [1000]
        ⟨0.02, 8, 0.03, 0.15, ⟨none, none, none⟩⟩ 2 (fun _ => (0 : ℝ)) = some s ∧
      run_optimization [200] [1000]
        ⟨0.02, 8, 0.03, 0.15, ⟨none, none, none⟩⟩ 2 (fun _ => (0 : ℝ)) = some r ∧
      listMax [200] = some bp ∧
      listMax (List.zipWith (· + ·) [200] s.best_delta) = some pp ∧
      r.cycles_used = 2 ∧
      r.best_score = pyRound s.best_score 4 ∧
      r.estimated_peak_gain_ratio =
        pyRound (if 0 < bp then (pp - bp) / bp else 0) 6 ∧
      r.confidence = pyRound (pyClamp
        (if (0 : ℝ) < 0.02 then
          (if 0 < bp then (pp - bp) / bp else 0) / 0.02
        else 0) 0 1) 4) :=
  ⟨by simp, @c10_rounding_and_cycles [200] [1000]
    ⟨0.02, 8, 0.03, 0.15, ⟨none, none, none⟩⟩ 2 (fun _ => (0 : ℝ)) (by simp)⟩

/-- C3.  For every non-empty baseline (the only kind the repository's own
schema validator admits) the search loop returns normally; and whenever
every cycle either has its candidate rejected or fails to improve on the
incumbent score — i.e. no step ever replaces the best — the result is the
zero-delta profile, the loop-level best score stays exactly
`sum(baseline)`, and the returned `best_score` field is that sum rounded
to 4 decimal places. -/
theorem c3_never_raises_and_degenerate {baseline : List ℝ} {rpm : List ℤ}
    {c : Constraints} {budget : ℕ} {u : ℕ → ℝ} (hne : baseline ≠ []) :
    ∃ r, run_optimization baseline rpm c budget u = some r ∧
      ((∀ cyc s s', cyc < budget →
          search_fold baseline rpm c budget u cyc = some s →
          opt_step baseline rpm c budget u cyc s = some s' →
          s'.best_delta = s.best_delta ∧
          s'.best_calibration = s.best_calibration ∧
          s'.best_score = s.best_score ∧ s'.best_warnings = s.best_warnings) →
        r.torque_delta_nm = List.replicate baseline.length 0 ∧
        (∃ s, search_core baseline rpm c budget u = some s ∧
          s.best_score = baseline.sum) ∧
        r.best_score = pyRound baseline.sum 4) := by
  obtain ⟨s, hcore, hlen, _⟩ := search_core_total hne
  obtain ⟨r, bp, pp, hrun, _, _, hrd, _, _, _, hrs, _, _⟩ :=
    run_optimization_assemble hne hcore hlen
  refine ⟨r, hrun, ?_⟩
  intro hkept
  obtain ⟨s2, hs2, hP2, _⟩ := search_fold_inv hne
    (fun t => t.best_delta = List.replicate baseline.length 0 ∧
      t.best_score = baseline.sum)
    (by constructor <;> (unfold init_state; rfl)) budget
    (by
      intro cyc t t' hlt hreach hstep hP
      obtain ⟨hd, _, hsc, _⟩ := hkept cyc t t' hlt hreach hstep
      rw [hd, hsc]
      exact hP)
  have hseq : s = s2 := by
    have := hs2
    rw [show search_fold baseline rpm c budget u budget =
      search_core baseline rpm c budget u from rfl, hcore] at this
    simpa using this
  subst hseq
  exact ⟨by rw [hrd, hP2.1], ⟨s, hcore, hP2.2⟩, by rw [hrs, hP2.2]⟩

theorem c3_witness :
    ([200] : List ℝ) ≠ [] ∧
    (∃ r, run_optimization [200] [1000]
        ⟨0.02, 0, 0.03, 0.15, ⟨none, none, none⟩⟩ 1 (fun _ => (0 : ℝ)) = some r ∧
      ((∀ cyc s s', cyc < 1 →
          search_fold [200] [1000] ⟨0.02, 0, 0.03, 0.15, ⟨none, none, none⟩⟩ 1
            (fun _ => (0 : ℝ)) cyc = some s →
          opt_step [200] [1000] ⟨0.02, 0, 0.03, 0.15, ⟨none, none, none⟩⟩ 1
            (fun _ => (0 : ℝ)) cyc s = some s' →
          s'.best_delta = s.best_delta ∧
          s'.best_calibration = s.best_calibration ∧
          s'.best_score = s.best_score ∧ s'.best_warnings = s.best_warnings) →
        r.torque_delta_nm = List.replicate ([200] : List ℝ).length 0 ∧
        (∃ s, search_core [200] [1000] ⟨0.02, 0, 0.03, 0.15, ⟨none, none, none⟩⟩ 1
          (fun _ => (0 : ℝ)) = some s ∧ s.best_score = ([200] : List ℝ).sum) ∧
        r.best_score = pyRound ([200] : List ℝ).sum 4)) :=
  ⟨by simp, @c3_never_raises_and_degenerate [200] [1000]
    ⟨0.02, 0, 0.03, 0.15, ⟨none, none, none⟩⟩ 1 (fun _ => (0 : ℝ)) (by simp)⟩


/-- C2 (counterexample).  A well-formed baseline (`[200]`, positive) and a
positive budget, but a constraints record with `max_bin_delta_nm = -1`:
every candidate is rejected (even the zero profile violates the negative
absolute cap), so the never-validated zero-delta default is returned — and
its entry `0` violates the Section 3 invariant
`|delta[i]| ≤ min(max_bin_delta_nm, baseline[i]*max_bin_delta_ratio) = -1`. -/
theorem c2_counterexample :
    (run_optimization [200] [1000] ⟨0.02, -1, 0.03, 0.15, ⟨none, none, none⟩⟩ 1
      (fun _ => (0 : ℝ))).map OptResult.torque_delta_nm = some [0] ∧
    ¬ (|(0 : ℝ)| ≤ min (-1 : ℝ) (200 * 0.03)) := by
  constructor
  · norm_num [run_optimization, search_core, search_fold, init_state,
      pick_calibration, uniform, orient, opt_step, gaussian_delta_profile,
      listMin, listMax, validate_proposal, checkBins, List.zip,
      List.range_succ, compute_score, abs_of_nonneg, List.replicate]
  · norm_num

/-- C2 (amended).  For every well-formed input — non-empty baseline of
positive torques, matching rpm-bin count, positive cycle budget, and a
well-formed constraints record (non-negative caps and bounds, ordered
configured calibration ranges) — the result of `run_optimization`
satisfies all the Section 3 invariants, both when a candidate was accepted
and when the zero-delta default is returned with its never-validated
sampled calibration.  (Finiteness of all values is inherent to the
real-number model.) -/
theorem c2_result_invariants {baseline : List ℝ} {rpm : List ℤ}
    {c : Constraints} {budget : ℕ} {u : ℕ → ℝ} (hne : baseline ≠ [])
    (hpos : ∀ b ∈ baseline, 0 < b) (hlen : baseline.length = rpm.length)
    (hbudget : 0 < budget) (hwf : ConstraintsWF c)
    (hu : ∀ j, 0 ≤ u j ∧ u j ≤ 1) :
    ∃ r, run_optimization baseline rpm c budget u = some r ∧
      r.torque_delta_nm.length = baseline.length ∧
      (∀ i < baseline.length, |r.torque_delta_nm.getD i 0| ≤
        min c.max_bin_delta_nm (baseline.getD i 0 * c.max_bin_delta_ratio)) ∧
      (∀ bp pp, listMax baseline = some bp →
        listMax (List.zipWith (· + ·) baseline r.torque_delta_nm) = some pp →
        (pp - bp) / bp ≤ c.max_peak_gain_ratio) ∧
      (∀ i, 1 ≤ i → i + 1 < baseline.length →
        |r.torque_delta_nm.getD (i + 1) 0 - 2 * r.torque_delta_nm.getD i 0 +
          r.torque_delta_nm.getD (i - 1) 0| ≤ c.max_second_derivative) ∧
      (∀ lo hi, c.calibration_ranges.afr_target = some (lo, hi) →
        lo ≤ r.calibration.afr_target ∧ r.calibration.afr_target ≤ hi) ∧
      (∀ lo hi, c.calibration_ranges.ign_timing_deg = some (lo, hi) →
        lo ≤ r.calibration.ign_timing_deg ∧ r.calibration.ign_timing_deg ≤ hi) ∧
      (∀ lo hi, c.calibration_ranges.boost_target_psi = some (lo, hi) →
        lo ≤ r.calibration.boost_target_psi ∧
        r.calibration.boost_target_psi ≤ hi) := by
  obtain ⟨s, hcore, hslen, hval⟩ := final_state_validated hne hpos hlen hwf hu
  obtain ⟨r, bp0, pp0, hrun, hbp0, hpp0, hrd, hrc, hrw, _, _, _, _⟩ :=
    run_optimization_assemble hne hcore hslen
  obtain ⟨hld, hlb, hcb, bp, pp, hbp, hpp, hpar⟩ := validate_ok_parts hval
  have hbins := checkBins_ok_bounds hcb
  obtain ⟨hpeak, hsmooth, hcc⟩ := peakAndRest_ok hpar
  obtain ⟨hafr, hign, hboost⟩ := checkCalibration_ok hcc
  have hdlen : s.best_delta.length = baseline.length := hslen
  refine ⟨r, hrun, by rw [hrd]; exact hdlen, ?_, ?_, ?_, ?_, ?_, ?_⟩
  · intro i hi
    have hiz : i < (s.best_delta.zip baseline).length := by
      simp only [List.length_zip, hdlen, min_self]
      exact hi
    have hb := hbins i hiz
    rw [zip_getD (by omega) hi] at hb
    obtain ⟨hb0, habs, hrat⟩ := hb
    rw [hrd]
    refine le_min habs ?_
    have := (div_le_iff₀ hb0).mp hrat
    linarith [this]
  · intro bp' pp' hbp' hpp'
    rw [hrd] at hpp'
    have hbpe : bp' = bp := by rw [hbp] at hbp'; exact (by simpa using hbp' : bp = bp').symm
    have hppe : pp' = pp := by rw [hpp] at hpp'; exact (by simpa using hpp' : pp = pp').symm
    subst hbpe
    subst hppe
    have hbp_pos : 0 < bp' := hpos bp' (listMax_mem hbp)
    exact hpeak hbp_pos
  · intro i h1 h2
    have h3 : 3 ≤ s.best_delta.length := by omega
    have hsd := secondDiffCheck_ok_bounds (hsmooth h3)
    obtain ⟨j, rfl⟩ : ∃ j, i = j + 1 := ⟨i - 1, by omega⟩
    have := hsd j (by omega)
    rw [hrd]
    simpa using this
  · rw [hrc]; exact hafr
  · rw [hrc]; exact hign
  · rw [hrc]; exact hboost

theorem c2_witness :
    (([200] : List ℝ) ≠ [] ∧ (∀ b ∈ ([200] : List ℝ), 0 < b) ∧
      ([200] : List ℝ).length = ([1000] : List ℤ).length ∧ 0 < 1 ∧
      (∀ j : ℕ, 0 ≤ (0 : ℝ) ∧ (0 : ℝ) ≤ 1)) ∧
    (∃ r, run_optimization [200] [1000]
        ⟨0.02, 8, 0.03, 0.15, ⟨none, none, none⟩⟩ 1 (fun _ => (0 : ℝ)) = some r ∧
      r.torque_delta_nm.length = ([200] : List ℝ).length ∧
      (∀ i < ([200] : List ℝ).length, |r.torque_delta_nm.getD i 0| ≤
        min (8 : ℝ) (([200] : List ℝ).getD i 0 * 0.03)) ∧
      (∀ bp pp, listMax [200] = some bp →
        listMax (List.zipWith (· + ·) [200] r.torque_delta_nm) = some pp →
        (pp - bp) / bp ≤ (0.02 : ℝ)) ∧
      (∀ i, 1 ≤ i → i + 1 < ([200] : List ℝ).length →
        |r.torque_delta_nm.getD (i + 1) 0 - 2 * r.torque_delta_nm.getD i 0 +
          r.torque_delta_nm.getD (i - 1) 0| ≤ (0.15 : ℝ)) ∧
      (∀ lo hi : ℝ, none = some (lo, hi) →
        lo ≤ r.calibration.afr_target ∧ r.calibration.afr_target ≤ hi) ∧
      (∀ lo hi : ℝ, none = some (lo, hi) →
        lo ≤ r.calibration.ign_timing_deg ∧ r.calibration.ign_timing_deg ≤ hi) ∧
      (∀ lo hi : ℝ, none = some (lo, hi) →
        lo ≤ r.calibration.boost_target_psi ∧
        r.calibration.boost_target_psi ≤ hi)) :=
  ⟨⟨by simp, by intro b hb; rw [List.mem_singleton.mp hb]; norm_num, rfl,
      Nat.one_pos, fun j => ⟨le_refl 0, by norm_num⟩⟩,
    c2_result_invariants (by simp)
      (by intro b hb; rw [List.mem_singleton.mp hb]; norm_num) rfl Nat.one_pos
      ⟨by norm_num, by norm_num, by norm_num, by norm_num,
        fun lo hi h => by simp at h, fun lo hi h => by simp at h,
        fun lo hi h => by simp at h⟩
      (fun j => ⟨le_refl 0, by norm_num⟩)⟩

/-- C7.  The warnings in the result equal what `validate_proposal` yields
on the returned best delta and calibration against the same baseline and
constraints: the code snapshots warnings at acceptance time, but the
validator is a pure function and the snapshot was taken from exactly the
retained candidate, so it coincides with revalidating the final result;
on the zero-delta default path the (empty) warnings likewise match. -/
theorem c7_warnings_match_final_candidate {baseline : List ℝ} {rpm : List ℤ}
    {c : Constraints} {budget : ℕ} {u : ℕ → ℝ} (hne : baseline ≠ [])
    (hpos : ∀ b ∈ baseline, 0 < b) (hlen : baseline.length = rpm.length)
    (hwf : ConstraintsWF c) (hu : ∀ j, 0 ≤ u j ∧ u j ≤ 1) :
    ∃ r, run_optimization baseline rpm c budget u = some r ∧
      validate_proposal r.torque_delta_nm r.calibration baseline rpm c =
        some (.ok r.warnings) := by
  obtain ⟨s, hcore, hslen, hval⟩ := final_state_validated hne hpos hlen hwf hu
  obtain ⟨r, bp0, pp0, hrun, _, _, hrd, hrc, hrw, _, _, _, _⟩ :=
    run_optimization_assemble hne hcore hslen
  exact ⟨r, hrun, by rw [hrd, hrc, hrw]; exact hval⟩

theorem c7_witness :
    (([200] : List ℝ) ≠ [] ∧ (∀ b ∈ ([200] : List ℝ), 0 < b) ∧
      ([200] : List ℝ).length = ([1000] : List ℤ).length ∧
      (∀ j : ℕ, 0 ≤ (0 : ℝ) ∧ (0 : ℝ) ≤ 1)) ∧
    (∃ r, run_optimization [200] [1000]
        ⟨0.02, 8, 0.03, 0.15, ⟨none, none, none⟩⟩ 3 (fun _ => (0 : ℝ)) = some r ∧
      validate_proposal r.torque_delta_nm r.calibration [200] [1000]
        ⟨0.02, 8, 0.03, 0.15, ⟨none, none, none⟩⟩ = some (.ok r.warnings)) :=
  ⟨⟨by simp, by intro b hb; rw [List.mem_singleton.mp hb]; norm_num, rfl,
      fun j => ⟨le_refl 0, by norm_num⟩⟩,
    @c7_warnings_match_final_candidate [200] [1000]
      ⟨0.02, 8, 0.03, 0.15, ⟨none, none, none⟩⟩ 3 (fun _ => (0 : ℝ)) (by simp)
      (by intro b hb; rw [List.mem_singleton.mp hb]; norm_num) rfl
      ⟨by norm_num, by norm_num, by norm_num, by norm_num,
        fun lo hi h => by simp at h, fun lo hi h => by simp at h,
        fun lo hi h => by simp at h⟩
      (fun j => ⟨le_refl 0, by norm_num⟩)⟩


theorem bell_pos (x : ℝ) : 0 < bell x := Real.exp_pos _

theorem bell_le_one (x : ℝ) : bell x ≤ 1 := by
  rw [bell, Real.exp_le_one_iff]
  nlinarith [sq_nonneg x]

theorem bell_hasDeriv (x : ℝ) : HasDerivAt bell (-x * bell x) x := by
  have h1 : HasDerivAt (fun t : ℝ => -0.5 * t ^ 2) (-0.5 * (2 * x ^ 1)) x :=
    (hasDerivAt_pow 2 x).const_mul (-0.5)
  have h2 := h1.exp
  convert h2 using 1
  rw [bell]
  ring

/-- The magnitude of the bell's second derivative `(x² - 1)·bell x` never
exceeds 1: upper half. -/
theorem bell_dd_le_one (x : ℝ) : (x ^ 2 - 1) * bell x ≤ 1 := by
  have hg : 0 < bell x := bell_pos x
  have hkey : x ^ 2 - 1 ≤ Real.exp (0.5 * x ^ 2) := by
    have h1 : 0.25 * x ^ 2 + 1 ≤ Real.exp (0.25 * x ^ 2) := by
      have := Real.add_one_le_exp (0.25 * x ^ 2)
      linarith
    have h2 : Real.exp (0.25 * x ^ 2) * Real.exp (0.25 * x ^ 2) =
        Real.exp (0.5 * x ^ 2) := by
      rw [← Real.exp_add]
      ring_nf
    nlinarith [sq_nonneg (x ^ 2 - 4), sq_nonneg x, Real.exp_pos (0.25 * x ^ 2)]
  have hmul : (x ^ 2 - 1) * bell x ≤ Real.exp (0.5 * x ^ 2) * bell x :=
    mul_le_mul_of_nonneg_right hkey (le_of_lt hg)
  have hprod : Real.exp (0.5 * x ^ 2) * bell x = 1 := by
    rw [bell, ← Real.exp_add]
    have harg : 0.5 * x ^ 2 + -0.5 * x ^ 2 = 0 := by ring
    rw [harg, Real.exp_zero]
  linarith

/-- The magnitude of the bell's second derivative `(x² - 1)·bell x` never
exceeds 1: lower half. -/
theorem bell_dd_ge_neg_one (x : ℝ) : -1 ≤ (x ^ 2 - 1) * bell x := by
  rcases le_or_lt 1 (x ^ 2) with h | h
  · have : 0 ≤ (x ^ 2 - 1) * bell x :=
      mul_nonneg (by linarith) (le_of_lt (bell_pos x))
    linarith
  · have h1 : (1 - x ^ 2) * bell x ≤ (1 - x ^ 2) * 1 :=
      mul_le_mul_of_nonneg_left (bell_le_one x) (by linarith)
    nlinarith [sq_nonneg x]

/-- `x ↦ x - bell'(x) = x + x·bell x` is monotone (since `bell'' ≤ 1`), the
key to the sharp second-difference bound. -/
theorem bellG_mono : Monotone (fun x : ℝ => x + x * bell x) := by
  have hd : ∀ x : ℝ, HasDerivAt (fun t : ℝ => t + t * bell t)
      (1 + (1 * bell x + x * (-x * bell x))) x :=
    fun x => (hasDerivAt_id x).add ((hasDerivAt_id x).mul (bell_hasDeriv x))
  refine monotone_of_deriv_nonneg (fun x => (hd x).differentiableAt) ?_
  intro x
  rw [(hd x).deriv]
  nlinarith [bell_dd_le_one x]

/-- `x ↦ x + bell'(x) = x - x·bell x` is monotone (since `-1 ≤ bell''`). -/
theorem bellH_mono : Monotone (fun x : ℝ => x - x * bell x) := by
  have hd : ∀ x : ℝ, HasDerivAt (fun t : ℝ => t - t * bell t)
      (1 - (1 * bell x + x * (-x * bell x))) x :=
    fun x => (hasDerivAt_id x).sub ((hasDerivAt_id x).mul (bell_hasDeriv x))
  refine monotone_of_deriv_nonneg (fun x => (hd x).differentiableAt) ?_
  intro x
  rw [(hd x).deriv]
  nlinarith [bell_dd_ge_neg_one x]

theorem bell_shift_hasDeriv (a : ℝ) (t : ℝ) :
    HasDerivAt (fun s : ℝ => bell (a + s)) (-(a + t) * bell (a + t)) t := by
  have h1 : HasDerivAt (fun s : ℝ => a + s) (0 + 1) t :=
    (hasDerivAt_const t a).add (hasDerivAt_id t)
  have := (bell_hasDeriv (a + t)).comp t h1
  convert this using 1
  ring

theorem bell_shift_hasDeriv' (a : ℝ) (t : ℝ) :
    HasDerivAt (fun s : ℝ => bell (a - s)) ((a - t) * bell (a - t)) t := by
  have h1 : HasDerivAt (fun s : ℝ => a - s) (0 - 1) t :=
    (hasDerivAt_const t a).sub (hasDerivAt_id t)
  have := (bell_hasDeriv (a - t)).comp t h1
  convert this using 1
  ring

/-- The sharp discrete bound: a symmetric second difference of the unit
bell with step `δ ≥ 0` is at most `δ²` (since `|bell''| ≤ 1`). -/
theorem bell_second_diff_unit (a δ : ℝ) (hδ : 0 ≤ δ) :
    |bell (a + δ) - 2 * bell a + bell (a - δ)| ≤ δ ^ 2 := by
  have hFd : ∀ t : ℝ, HasDerivAt
      (fun t : ℝ => t ^ 2 - bell (a + t) - bell (a - t) + 2 * bell a)
      (2 * t + (a + t) * bell (a + t) - (a - t) * bell (a - t)) t := by
    intro t
    have h1 : HasDerivAt (fun t : ℝ => t ^ 2) (2 * t ^ 1) t := hasDerivAt_pow 2 t
    have := ((h1.sub (bell_shift_hasDeriv a t)).sub
      (bell_shift_hasDeriv' a t)).add_const (2 * bell a)
    convert this using 1
    ring
  have hF2d : ∀ t : ℝ, HasDerivAt
      (fun t : ℝ => t ^ 2 + bell (a + t) + bell (a - t) - 2 * bell a)
      (2 * t + -(a + t) * bell (a + t) + (a - t) * bell (a - t)) t := by
    intro t
    have h1 : HasDerivAt (fun t : ℝ => t ^ 2) (2 * t ^ 1) t := hasDerivAt_pow 2 t
    have := ((h1.add (bell_shift_hasDeriv a t)).add
      (bell_shift_hasDeriv' a t)).sub_const (2 * bell a)
    convert this using 1
    ring
  have hdiff1 : Differentiable ℝ
      (fun t : ℝ => t ^ 2 - bell (a + t) - bell (a - t) + 2 * bell a) :=
    fun t => (hFd t).differentiableAt
  have hmono : MonotoneOn
      (fun t : ℝ => t ^ 2 - bell (a + t) - bell (a - t) + 2 * bell a)
      (Set.Ici 0) := by
    refine monotoneOn_of_deriv_nonneg (convex_Ici 0)
      hdiff1.continuous.continuousOn hdiff1.differentiableOn ?_
    intro t ht
    rw [interior_Ici] at ht
    rw [(hFd t).deriv]
    have hle : a - t ≤ a + t := by
      have := le_of_lt (Set.mem_Ioi.mp ht)
      linarith
    have hG := bellG_mono hle
    simp only at hG
    linarith
  have hdiff2 : Differentiable ℝ
      (fun t : ℝ => t ^ 2 + bell (a + t) + bell (a - t) - 2 * bell a) :=
    fun t => (hF2d t).differentiableAt
  have hmono2 : MonotoneOn
      (fun t : ℝ => t ^ 2 + bell (a + t) + bell (a - t) - 2 * bell a)
      (Set.Ici 0) := by
    refine monotoneOn_of_deriv_nonneg (convex_Ici 0)
      hdiff2.continuous.continuousOn hdiff2.differentiableOn ?_
    intro t ht
    rw [interior_Ici] at ht
    rw [(hF2d t).deriv]
    have hle : a - t ≤ a + t := by
      have := le_of_lt (Set.mem_Ioi.mp ht)
      linarith
    have hH := bellH_mono hle
    simp only at hH
    linarith
  have h0 : (0 : ℝ) ∈ Set.Ici (0 : ℝ) := Set.mem_Ici.mpr (le_refl 0)
  have hδm : δ ∈ Set.Ici (0 : ℝ) := Set.mem_Ici.mpr hδ
  have hup := hmono h0 hδm hδ
  have hlow := hmono2 h0 hδm hδ
  simp only [add_zero, sub_zero] at hup hlow
  rw [abs_le]
  constructor
  · nlinarith [hlow]
  · nlinarith [hup]

/-- The discrete second difference of a Gaussian delta profile with peak
`P ≥ 0` and width `σ > 0` is bounded by `P / σ²`. -/
theorem gaussian_second_diff (P σ cnt x : ℝ) (hP : 0 ≤ P) (hσ : 0 < σ) :
    |P * Real.exp (-0.5 * ((x + 1 - cnt) / σ) ^ 2) -
      2 * (P * Real.exp (-0.5 * ((x - cnt) / σ) ^ 2)) +
      P * Real.exp (-0.5 * ((x - 1 - cnt) / σ) ^ 2)| ≤ P / σ ^ 2 := by
  have hσ' : σ ≠ 0 := ne_of_gt hσ
  have ha1 : (x + 1 - cnt) / σ = (x - cnt) / σ + 1 / σ := by ring
  have ha2 : (x - 1 - cnt) / σ = (x - cnt) / σ - 1 / σ := by ring
  rw [ha1, ha2]
  have hb := bell_second_diff_unit ((x - cnt) / σ) (1 / σ) (by positivity)
  simp only [bell] at hb
  have hfactor : P * Real.exp (-0.5 * ((x - cnt) / σ + 1 / σ) ^ 2) -
      2 * (P * Real.exp (-0.5 * ((x - cnt) / σ) ^ 2)) +
      P * Real.exp (-0.5 * ((x - cnt) / σ - 1 / σ) ^ 2) =
      P * (Real.exp (-0.5 * ((x - cnt) / σ + 1 / σ) ^ 2) -
        2 * Real.exp (-0.5 * ((x - cnt) / σ) ^ 2) +
        Real.exp (-0.5 * ((x - cnt) / σ - 1 / σ) ^ 2)) := by ring
  rw [hfactor, abs_mul, abs_of_nonneg hP]
  have hbound := mul_le_mul_of_nonneg_left hb hP
  have hσ2 : P * (1 / σ) ^ 2 = P / σ ^ 2 := by
    field_simp
  rw [← hσ2]
  exact hbound


/-- C4.  Smoothness by construction: for a baseline of length ≥ 3 with
positive torques, a positive smoothness bound, an exploration scale in
`(0, 1]`, and any values the random stream can produce, the profile
returned by the Gaussian candidate generator satisfies
`|d[i+1] - 2·d[i] + d[i-1]| ≤ max_second_derivative` at every interior bin
— the analytic choice `sigma ≥ sqrt(peak / max_second_derivative)` makes
the constraint hold before validation ever runs. -/
theorem c4_smoothness_by_construction {u : ℕ → ℝ} {k : ℕ} {baseline : List ℝ}
    {c : Constraints} {scale : ℝ} (hn : 3 ≤ baseline.length)
    (hpos : ∀ b ∈ baseline, 0 < b) (hmsd : 0 < c.max_second_derivative)
    (hscale0 : 0 < scale) (hscale1 : scale ≤ 1)
    (hu : ∀ j, 0 ≤ u j ∧ u j ≤ 1) :
    ∃ d k', gaussian_delta_profile u k baseline c scale = some (d, k') ∧
      d.length = baseline.length ∧
      ∀ i, 1 ≤ i → i + 1 < baseline.length →
        |d.getD (i + 1) 0 - 2 * d.getD i 0 + d.getD (i - 1) 0| ≤
          c.max_second_derivative := by
  have hne : baseline ≠ [] := by
    intro h
    rw [h] at hn
    simp at hn
  obtain ⟨d, k', hgen, hlen, _⟩ := gaussian_total hne
  refine ⟨d, k', hgen, hlen, ?_⟩
  rcases gaussian_main_shape hu hscale0 hscale1 hgen with hzero |
    ⟨P, σ, cnt, hP, hσ, hsq, hd⟩
  · intro i h1 h2
    subst hzero
    rw [getD_replicate_zero, getD_replicate_zero, getD_replicate_zero]
    simpa using le_of_lt hmsd
  · intro i h1 h2
    subst hd
    have hg : ∀ j, j < baseline.length →
        ((List.range baseline.length).map (fun (j : ℕ) =>
          P * Real.exp (-0.5 * (((j : ℝ) - cnt) / σ) ^ 2))).getD j 0 =
        P * Real.exp (-0.5 * (((j : ℝ) - cnt) / σ) ^ 2) := by
      intro j hj
      rw [List.getD_eq_getElem _ 0 (by simpa using hj)]
      simp
    rw [hg (i + 1) (by simpa using h2), hg i (by omega), hg (i - 1) (by omega)]
    obtain ⟨m, rfl⟩ : ∃ m, i = m + 1 := ⟨i - 1, by omega⟩
    have hc1 : ((m + 1 + 1 : ℕ) : ℝ) = ((m + 1 : ℕ) : ℝ) + 1 := by push_cast; ring
    have hc2 : ((m + 1 - 1 : ℕ) : ℝ) = ((m + 1 : ℕ) : ℝ) - 1 := by
      rw [Nat.add_sub_cancel]
      push_cast
      ring
    rw [hc1, hc2]
    have hb := gaussian_second_diff P σ cnt ((m + 1 : ℕ) : ℝ) (le_of_lt hP) hσ
    have hfin : P / σ ^ 2 ≤ c.max_second_derivative := by
      rw [div_le_iff₀ (by positivity)]
      have hPs := (div_le_iff₀ hmsd).mp hsq
      nlinarith
    exact le_trans hb hfin


theorem c4_witness :
    (3 ≤ ([200, 200, 200] : List ℝ).length ∧
      (∀ b ∈ ([200, 200, 200] : List ℝ), 0 < b) ∧ (0 : ℝ) < 0.15 ∧
      (0 : ℝ) < 1 ∧ (1 : ℝ) ≤ 1 ∧ (∀ j : ℕ, 0 ≤ (0 : ℝ) ∧ (0 : ℝ) ≤ 1)) ∧
    (∃ d k', gaussian_delta_profile (fun _ => (0 : ℝ)) 0 [200, 200, 200]
        ⟨0.02, 8, 0.03, 0.15, ⟨none, none, none⟩⟩ 1 = some (d, k') ∧
      d.length = ([200, 200, 200] : List ℝ).length ∧
      ∀ i, 1 ≤ i → i + 1 < ([200, 200, 200] : List ℝ).length →
        |d.getD (i + 1) 0 - 2 * d.getD i 0 + d.getD (i - 1) 0| ≤ (0.15 : ℝ)) :=
  ⟨⟨by norm_num, by intro b hb; fin_cases hb <;> norm_num, by norm_num,
      by norm_num, le_refl 1, fun j => ⟨le_refl 0, by norm_num⟩⟩,
    c4_smoothness_by_construction (u := fun _ => (0 : ℝ)) (k := 0)
      (by norm_num) (by intro b hb; fin_cases hb <;> norm_num) (by norm_num)
      (by norm_num) (le_refl 1) (fun j => ⟨le_refl 0, by norm_num⟩)⟩

end

end DynoECU
